import Mathlib

/-!
Verification of the intrusive doubly-linked list (`src/dllist.rs`) and the
bounded priority queue (`src/bpqueue.rs`) of mywheel-rs.

Modelling conventions
* Raw pointers are heap addresses (`Nat`); address `0` plays the role of the
  null pointer (`std::ptr::null_mut()`), which is never the address of a node.
* The heap is a total map from addresses to node records; a Rust field write
  becomes one functional heap update, in the statement order of the source,
  so aliasing behaves exactly as the raw-pointer writes do.
* `usize` is modelled as `Nat`.  The one machine-arithmetic boundary the
  program can actually reach with in-range keys, the underflow of
  `it.data.0 -= delta` and of `self.max -= 1`, is modelled explicitly as a
  panic (debug semantics); the additions of `increase_key` stay far below
  2^64 whenever their own `assert!(it.data.0 <= self.high)` passes.
* A Rust panic (a failed `assert!`, an out-of-bounds `Vec` index, an
  arithmetic underflow) is `Except.error s` where `s` is the memory state at
  the moment the panic fires -- mutations already performed are kept.
* Address layout of a queue with field `high`: the source allocates
  `b - a + 2 = high + 1` buckets; bucket `i` (for `i < high + 1`) has its
  list-head `Dllink` at address `i + 1`; the sentinel node lives at address
  `high + 2`; caller-created nodes live at other nonzero addresses.
* `bmodel` is ghost instrumentation (not present in the Rust struct): it
  records, per bucket, the addresses of the nodes resident in that bucket in
  list order.  The well-formedness predicate `WF` ties it to the heap; every
  theorem about reachable states goes through `WF`.
-/

set_option linter.unusedVariables false

namespace Mywheel

/-- Rust `Dllink<T>`: `next` and `prev` are raw pointers (heap addresses
here), `key` is the first component `data.0 : usize` of the payload used by
the queue; the generic payload component is irrelevant to the claims. -/
structure Node where
  next : Nat
  prev : Nat
  key  : Nat
deriving DecidableEq

/-- The memory: a total map from addresses to node records. -/
abbrev Heap := Nat → Node

/-- One field-preserving update of a single heap cell. -/
def hup (h : Heap) (x : Nat) (f : Node → Node) : Heap :=
  fun y => if y = x then f (h y) else h y

/-- Rust `Dllink::new(data)`: `next` and `prev` are *null* pointers. -/
def dlNew (h : Heap) (a : Nat) (k : Nat) : Heap :=
  hup h a (fun _ => ⟨0, 0, k⟩)

/-- Rust `Dllink::clear`: self-referential `next` and `prev`. -/
def dlClear (h : Heap) (a : Nat) : Heap :=
  hup h a (fun nd => ⟨a, a, nd.key⟩)

/-- Rust `Dllink::lock`: only `next` is set to self (`prev` is untouched). -/
def dlLock (h : Heap) (a : Nat) : Heap :=
  hup h a (fun nd => { nd with next := a })

/-- Rust `Dllink::is_locked`: pointer equality `std::ptr::eq(self.next, self)`. -/
def dlIsLocked (h : Heap) (a : Nat) : Bool :=
  (h a).next == a

/-- Body of Rust `Dllink::attach` called as `s.attach(a)`, in source
statement order: `node.next = self.next; (*self.next).prev = node;
self.next = node; node.prev = self`. -/
def dlAttach (h : Heap) (s a : Nat) : Heap :=
  let sn := (h s).next
  let h1 := hup h a (fun nd => { nd with next := sn })
  let h2 := hup h1 sn (fun nd => { nd with prev := a })
  let h3 := hup h2 s (fun nd => { nd with next := a })
  hup h3 a (fun nd => { nd with prev := s })

/-- Body of Rust `Dllink::detach` after its `assert!(!self.is_locked())`:
`(*p).next = n; (*n).prev = p`.  The caller checks the assert. -/
def dlDetach (h : Heap) (a : Nat) : Heap :=
  let n := (h a).next
  let p := (h a).prev
  let h1 := hup h p (fun nd => { nd with next := n })
  hup h1 n (fun nd => { nd with prev := p })

/-- Rust `Dllist::is_empty` for the list whose head node is at `hd`. -/
def listIsEmpty (h : Heap) (hd : Nat) : Bool :=
  (h hd).next == hd

/-- Rust `Dllist::appendleft`: `self.head.attach(node)`. -/
def listAppendleft (h : Heap) (hd a : Nat) : Heap :=
  dlAttach h hd a

/-- Rust `Dllist::append`: `(*self.head.prev).attach(node)`. -/
def listAppend (h : Heap) (hd a : Nat) : Heap :=
  dlAttach h ((h hd).prev) a

/-- Address of the list-head `Dllink` of bucket `i`. -/
def bhd (i : Nat) : Nat := i + 1

/-- Rust `BPQueue<T>` plus the ghost residency model `bmodel`. -/
structure BPQ where
  max    : Nat
  offset : Int
  high   : Nat
  heap   : Heap
  bmodel : List (List Nat)

/-- Address of the sentinel node of a queue. -/
def BPQ.sent (bq : BPQ) : Nat := bq.high + 2

/-- Ghost contents of bucket `i` (addresses of resident nodes, in order
from the bucket head). -/
def BPQ.bkt (bq : BPQ) (i : Nat) : List Nat := bq.bmodel.getD i []

/-- The heap right after the construction loop of `BPQueue::new`: every
bucket head (bucket `i` at address `i + 1`) has been `clear()`ed into a self
loop, with the payload tag `5354` of `Dllist::new((5354, T::default()))`;
the sentinel (address `high + 2`) is `Dllink::new((1314, T::default()))`,
so it still has null pointers; all other cells are unallocated junk. -/
def initHeap (high : Nat) : Heap := fun x =>
  if 1 ≤ x ∧ x ≤ high + 1 then ⟨x, x, 5354⟩
  else if x = high + 2 then ⟨0, 0, 1314⟩
  else ⟨0, 0, 0⟩

/-- Rust `BPQueue::new(a, b)`: `assert!(a <= b)` (`none` on failure);
`offset = a - 1`, `high = b - a + 1`, `b - a + 2` buckets, all cleared,
then `bucket[0].append(&mut sentinel)`. -/
def BPQ.new (a b : Int) : Option BPQ :=
  if a ≤ b then
    let high := (b - a + 1).toNat
    some { max := 0
           offset := a - 1
           high := high
           heap := listAppend (initHeap high) (bhd 0) (high + 2)
           bmodel := (List.replicate (high + 1) ([] : List Nat)).set 0 [high + 2] }
  else none

/-- Rust `BPQueue::is_empty`: `self.max == 0`. -/
def BPQ.is_empty (bq : BPQ) : Bool := bq.max == 0

/-- Rust `BPQueue::get_max`: `self.offset + self.max as i32`. -/
def BPQ.get_max (bq : BPQ) : Int := bq.offset + (bq.max : Int)

/-- Rust `BPQueue::append(it, k)`: `assert!(k > self.offset)` (fires before
any mutation); `it.data.0 = (k - offset) as usize`; raise `max`; then
`self.bucket[it.data.0].append(it)`, whose `Vec` index panics when
`it.data.0 >= high + 1` -- at that point the key write and the raise of
`max` have already happened. -/
def BPQ.append (bq : BPQ) (a : Nat) (k : Int) : Except BPQ BPQ :=
  if bq.offset < k then
    let idx := (k - bq.offset).toNat
    let h1 := hup bq.heap a (fun nd => { nd with key := idx })
    let m1 := if bq.max < idx then idx else bq.max
    if idx < bq.high + 1 then
      .ok { bq with heap := listAppend h1 (bhd idx) a
                    max := m1
                    bmodel := bq.bmodel.set idx (bq.bmodel.getD idx [] ++ [a]) }
    else .error { bq with heap := h1, max := m1 }
  else .error bq

/-- Rust `BPQueue::appendleft(it, k)`: as `append` but head insertion. -/
def BPQ.appendleft (bq : BPQ) (a : Nat) (k : Int) : Except BPQ BPQ :=
  if bq.offset < k then
    let idx := (k - bq.offset).toNat
    let h1 := hup bq.heap a (fun nd => { nd with key := idx })
    let m1 := if bq.max < idx then idx else bq.max
    if idx < bq.high + 1 then
      .ok { bq with heap := listAppendleft h1 (bhd idx) a
                    max := m1
                    bmodel := bq.bmodel.set idx (a :: bq.bmodel.getD idx []) }
    else .error { bq with heap := h1, max := m1 }
  else .error bq

/-- The loop `while self.bucket[self.max].is_empty() { self.max -= 1; }`;
`none` is the panic of the `usize` underflow `max -= 1` at `max == 0`. -/
def rewind (h : Heap) : Nat → Option Nat
  | 0 => if listIsEmpty h (bhd 0) then none else some 0
  | m + 1 => if listIsEmpty h (bhd (m + 1)) then rewind h m else some (m + 1)

/-- Rust `BPQueue::popleft`: `self.bucket[self.max].popleft()` (the `Vec`
index panics first when `max` is out of bounds; `Dllist::popleft` then takes
`res = head.next` and runs `(*res).detach()`, whose assert fires exactly
when `res` is a self loop -- in particular when the bucket is empty and
`res` is the head itself); then the rewind loop. -/
def BPQ.popleft (bq : BPQ) : Except BPQ (BPQ × Nat) :=
  if bq.max < bq.high + 1 then
    let r := (bq.heap (bhd bq.max)).next
    if (bq.heap r).next = r then .error bq
    else
      let h1 := dlDetach bq.heap r
      let bm1 := bq.bmodel.set bq.max ((bq.bmodel.getD bq.max []).drop 1)
      match rewind h1 bq.max with
      | some m => .ok ({ bq with heap := h1, max := m, bmodel := bm1 }, r)
      | none => .error { bq with heap := h1, max := 0, bmodel := bm1 }
  else .error bq

/-- Rust `BPQueue::detach(it)`: `it.detach()` (assert on a locked node fires
before any mutation), then the rewind loop, whose first `Vec` index panics
when `max` is out of bounds -- after the detach already happened. -/
def BPQ.detach (bq : BPQ) (a : Nat) : Except BPQ BPQ :=
  if (bq.heap a).next = a then .error bq
  else
    let h1 := dlDetach bq.heap a
    let bm1 := bq.bmodel.set ((bq.heap a).key)
                 ((bq.bmodel.getD ((bq.heap a).key) []).erase a)
    if bq.max < bq.high + 1 then
      match rewind h1 bq.max with
      | some m => .ok { bq with heap := h1, max := m, bmodel := bm1 }
      | none => .error { bq with heap := h1, max := 0, bmodel := bm1 }
    else .error { bq with heap := h1, bmodel := bm1 }

/-- Rust `BPQueue::decrease_key(it, delta)`: `it.detach()` (assert first);
`it.data.0 -= delta` (debug underflow panic, before the write);
`assert!(it.data.0 > 0)`; `assert!(it.data.0 <= self.high)` (both fire
after the key write); tail insertion into the new bucket; raise or rewind
`max`. -/
def BPQ.decrease_key (bq : BPQ) (a : Nat) (δ : Nat) : Except BPQ BPQ :=
  if (bq.heap a).next = a then .error bq
  else
    let k0 := (bq.heap a).key
    let h1 := dlDetach bq.heap a
    let bm1 := bq.bmodel.set k0 ((bq.bmodel.getD k0 []).erase a)
    if k0 < δ then .error { bq with heap := h1, bmodel := bm1 }
    else
      let k1 := k0 - δ
      let h2 := hup h1 a (fun nd => { nd with key := k1 })
      if k1 = 0 then .error { bq with heap := h2, bmodel := bm1 }
      else if bq.high < k1 then .error { bq with heap := h2, bmodel := bm1 }
      else
        let h3 := listAppend h2 (bhd k1) a
        let bm2 := bm1.set k1 (bm1.getD k1 [] ++ [a])
        if bq.max < k1 then
          .ok { bq with heap := h3, max := k1, bmodel := bm2 }
        else if bq.max < bq.high + 1 then
          match rewind h3 bq.max with
          | some m => .ok { bq with heap := h3, max := m, bmodel := bm2 }
          | none => .error { bq with heap := h3, max := 0, bmodel := bm2 }
        else .error { bq with heap := h3, bmodel := bm2 }

/-- Rust `BPQueue::increase_key(it, delta)`: `it.detach()` (assert first);
`it.data.0 += delta`; `assert!(it.data.0 > 0)`;
`assert!(it.data.0 <= self.high)` (both after the key write); head
insertion into the new bucket; raise `max` if exceeded (no rewind). -/
def BPQ.increase_key (bq : BPQ) (a : Nat) (δ : Nat) : Except BPQ BPQ :=
  if (bq.heap a).next = a then .error bq
  else
    let k0 := (bq.heap a).key
    let h1 := dlDetach bq.heap a
    let bm1 := bq.bmodel.set k0 ((bq.bmodel.getD k0 []).erase a)
    let k1 := k0 + δ
    let h2 := hup h1 a (fun nd => { nd with key := k1 })
    if k1 = 0 then .error { bq with heap := h2, bmodel := bm1 }
    else if bq.high < k1 then .error { bq with heap := h2, bmodel := bm1 }
    else
      let h3 := listAppendleft h2 (bhd k1) a
      let bm2 := bm1.set k1 (a :: bm1.getD k1 [])
      .ok { bq with heap := h3
                    max := if bq.max < k1 then k1 else bq.max
                    bmodel := bm2 }

/-- Rust `BPQueue::modify_key(it, delta)`: returns untouched when
`it.is_locked()`; otherwise dispatches on the sign of `delta`, with
`delta == 0` a no-op. -/
def BPQ.modify_key (bq : BPQ) (a : Nat) (δ : Int) : Except BPQ BPQ :=
  if (bq.heap a).next = a then .ok bq
  else if 0 < δ then bq.increase_key a δ.toNat
  else if δ < 0 then bq.decrease_key a (-δ).toNat
  else .ok bq

/-- The heap effect of the loop of `BPQueue::clear`:
`while max > 0 { bucket[max].clear(); max -= 1; }`. -/
def clearLoop (h : Heap) : Nat → Heap
  | 0 => h
  | m + 1 => clearLoop (dlClear h (bhd (m + 1))) m

/-- Ghost companion of `clearLoop`: buckets `1..=m` become empty. -/
def clearLoopG (bm : List (List Nat)) : Nat → List (List Nat)
  | 0 => bm
  | m + 1 => clearLoopG (bm.set (m + 1) ([] : List Nat)) m

/-- Rust `BPQueue::clear`.  When `0 < max` and `max` is out of bounds the
first `Vec` index of the loop panics before any mutation. -/
def BPQ.clear (bq : BPQ) : Except BPQ BPQ :=
  if bq.max < bq.high + 1 then
    .ok { bq with heap := clearLoop bq.heap bq.max
                  max := 0
                  bmodel := clearLoopG bq.bmodel bq.max }
  else .error bq

/-- Rust `Dllist::popleft`: `res = head.next; (*res).detach(); res`.
The caller checks the non-emptiness precondition (detach would assert). -/
def listPopleft (h : Heap) (hd : Nat) : Heap × Nat :=
  let r := (h hd).next
  (dlDetach h r, r)

/-- Rust `Dllist::pop`: `res = head.prev; (*res).detach(); res`. -/
def listPop (h : Heap) (hd : Nat) : Heap × Nat :=
  let r := (h hd).prev
  (dlDetach h r, r)

/-! ## Paths and rings

`pathOk h l` says consecutive elements of `l` are linked forward by `next`
and backward by `prev`.  A sentinel-headed circular list with head `hd` and
members `xs` (in order) is `ringOk h hd xs`. -/

def pathOk (h : Heap) : List Nat → Prop
  | a :: b :: rest => (h a).next = b ∧ (h b).prev = a ∧ pathOk h (b :: rest)
  | _ => True

instance pathOk.inst (h : Heap) : (l : List Nat) → Decidable (pathOk h l)
  | [] => isTrue trivial
  | [_] => isTrue trivial
  | a :: b :: rest =>
    have : Decidable (pathOk h (b :: rest)) := pathOk.inst h (b :: rest)
    decidable_of_iff ((h a).next = b ∧ (h b).prev = a ∧ pathOk h (b :: rest)) Iff.rfl

def ringOk (h : Heap) (hd : Nat) (xs : List Nat) : Prop :=
  pathOk h (hd :: xs ++ [hd])

/-! ## Well-formed queue states

`WFc` ties the ghost `bmodel` to the heap: every bucket is a well-formed
ring matching its ghost contents, buckets are pairwise disjoint, resident
nodes live strictly above the head addresses and carry their bucket index
in `data.0` (the sentinel bucket 0 excepted), and the sentinel is the sole
resident of bucket 0.  `WF` adds the `max` tracking invariants. -/

def WFc (bq : BPQ) : Prop :=
  bq.bmodel.length = bq.high + 1 ∧
  bq.bkt 0 = [bq.sent] ∧
  (∀ i < bq.high + 1, ringOk bq.heap (bhd i) (bq.bkt i)) ∧
  (∀ i < bq.high + 1, (bq.bkt i).Nodup) ∧
  (∀ i < bq.high + 1, ∀ j < bq.high + 1, i ≠ j → ∀ x ∈ bq.bkt i, x ∉ bq.bkt j) ∧
  (∀ i < bq.high + 1, ∀ x ∈ bq.bkt i, bq.high + 1 < x) ∧
  (∀ i < bq.high + 1, 0 < i → ∀ x ∈ bq.bkt i, (bq.heap x).key = i)

def WF (bq : BPQ) : Prop :=
  WFc bq ∧ bq.max < bq.high + 1 ∧
  (∀ i < bq.high + 1, bq.max < i → bq.bkt i = []) ∧
  bq.bkt bq.max ≠ []

/-- A caller-supplied node that is not resident anywhere in the queue. -/
def fresh (bq : BPQ) (a : Nat) : Prop :=
  bq.high + 1 < a ∧ ∀ i < bq.high + 1, a ∉ bq.bkt i

instance instDecRingOk (h : Heap) (hd : Nat) (xs : List Nat) :
    Decidable (ringOk h hd xs) :=
  pathOk.inst h (hd :: xs ++ [hd])

instance instDecWFc (bq : BPQ) : Decidable (WFc bq) :=
  decidable_of_iff
    (bq.bmodel.length = bq.high + 1 ∧
     bq.bkt 0 = [bq.sent] ∧
     (∀ i < bq.high + 1, ringOk bq.heap (bhd i) (bq.bkt i)) ∧
     (∀ i < bq.high + 1, (bq.bkt i).Nodup) ∧
     (∀ i < bq.high + 1, ∀ j < bq.high + 1, ∀ x ∈ bq.bkt i, x ∈ bq.bkt j → i = j) ∧
     (∀ i < bq.high + 1, ∀ x ∈ bq.bkt i, bq.high + 1 < x) ∧
     (∀ i < bq.high + 1, 0 < i → ∀ x ∈ bq.bkt i, (bq.heap x).key = i))
    (by
      unfold WFc
      constructor
      · rintro ⟨h1, h2, h3, h4, h5, h6, h7⟩
        exact ⟨h1, h2, h3, h4,
          fun i hi j hj hij x hx hmem => hij (h5 i hi j hj x hx hmem), h6, h7⟩
      · rintro ⟨h1, h2, h3, h4, h5, h6, h7⟩
        refine ⟨h1, h2, h3, h4, fun i hi j hj x hx hmem => ?_, h6, h7⟩
        by_contra hne
        exact h5 i hi j hj hne x hx hmem)

instance instDecWF (bq : BPQ) : Decidable (WF bq) := by
  unfold WF
  infer_instance

instance instDecFresh (bq : BPQ) (a : Nat) : Decidable (fresh bq a) := by
  unfold fresh
  infer_instance

/-- Fold of `append` over a list of (address, external key) pairs. -/
def appendChain (bq : BPQ) : List (Nat × Int) → Except BPQ BPQ
  | [] => .ok bq
  | (a, k) :: rest =>
    match BPQ.append bq a k with
    | .ok bq2 => appendChain bq2 rest
    | .error e => .error e

/-- `n` successive `popleft` calls, collecting the external key
`offset + data.0` of each popped node at the moment it is returned. -/
def popChain (bq : BPQ) : Nat → Except BPQ (BPQ × List Int)
  | 0 => .ok (bq, [])
  | n + 1 =>
    match BPQ.popleft bq with
    | .ok (bq2, r) =>
      match popChain bq2 n with
      | .ok (bq3, ks) => .ok (bq3, (bq.offset + ((bq.heap r).key : Int)) :: ks)
      | .error e => .error e
    | .error e => .error e

/-- The queue holds exactly the nodes of `L` (address, internal index),
one per bucket, at strictly increasing indices; `max` is the largest index
(`0` when `L` is empty). -/
def thin (bq : BPQ) (L : List (Nat × Nat)) : Prop :=
  WF bq ∧
  (∀ p ∈ L, 0 < p.2 ∧ p.2 ≤ bq.high ∧ bq.bkt p.2 = [p.1]) ∧
  (∀ i, 0 < i → i < bq.high + 1 → (∀ p ∈ L, p.2 ≠ i) → bq.bkt i = []) ∧
  L.Chain' (fun p q => p.2 < q.2) ∧
  bq.max = (L.map Prod.snd).getLastD 0

/-- One BPQueue operation applied under its documented preconditions:
keys stay inside `[low, high]`, appended nodes are caller-owned and not
resident anywhere, and the key-modifying operations receive a node that is
resident in some bucket (the sentinel and the bucket heads are not
caller-visible nodes). -/
inductive Step : BPQ → BPQ → Prop
  | append (bq bq' : BPQ) (a : Nat) (k : Int) :
      fresh bq a → bq.offset < k → k ≤ bq.offset + bq.high →
      BPQ.append bq a k = .ok bq' → Step bq bq'
  | appendleft (bq bq' : BPQ) (a : Nat) (k : Int) :
      fresh bq a → bq.offset < k → k ≤ bq.offset + bq.high →
      BPQ.appendleft bq a k = .ok bq' → Step bq bq'
  | popleft (bq bq' : BPQ) (r : Nat) :
      0 < bq.max → BPQ.popleft bq = .ok (bq', r) → Step bq bq'
  | detach (bq bq' : BPQ) (a i : Nat) :
      0 < i → i < bq.high + 1 → a ∈ bq.bkt i →
      BPQ.detach bq a = .ok bq' → Step bq bq'
  | increase (bq bq' : BPQ) (a i δ : Nat) :
      0 < i → i < bq.high + 1 → a ∈ bq.bkt i → i + δ ≤ bq.high →
      BPQ.increase_key bq a δ = .ok bq' → Step bq bq'
  | decrease (bq bq' : BPQ) (a i δ : Nat) :
      0 < i → i < bq.high + 1 → a ∈ bq.bkt i → 0 < i - δ → i - δ ≤ bq.high →
      BPQ.decrease_key bq a δ = .ok bq' → Step bq bq'
  | modifyLocked (bq bq' : BPQ) (x : Nat) (δ : Int) :
      (bq.heap x).next = x → BPQ.modify_key bq x δ = .ok bq' → Step bq bq'
  | modifyKey (bq bq' : BPQ) (a i : Nat) (δ : Int) :
      0 < i → i < bq.high + 1 → a ∈ bq.bkt i →
      (0 < δ → i + δ.toNat ≤ bq.high) →
      (δ < 0 → 0 < i - (-δ).toNat ∧ i - (-δ).toNat ≤ bq.high) →
      BPQ.modify_key bq a δ = .ok bq' → Step bq bq'


/-! ## Concrete sample states used by the witnesses -/

def dummyQ : BPQ :=
  { max := 0, offset := 0, high := 0, heap := fun _ => ⟨0, 0, 0⟩, bmodel := [] }

/-- The queue `BPQueue::new(1, 1)`. -/
def sampleQ : BPQ := (BPQ.new 1 1).getD dummyQ

/-- `sampleQ` after `append(node at address 10, key 1)`. -/
def sampleQ2 : BPQ :=
  match BPQ.append sampleQ 10 1 with
  | .ok bq => bq
  | .error bq => bq

/-- `sampleQ2` with the resident node locked in place (the scenario of
`modify_key` on a locked node). -/
def sampleL : BPQ := { sampleQ2 with heap := dlLock sampleQ2.heap 10 }

/-- The queue `BPQueue::new(1, 3)`. -/
def sampleB0 : BPQ := (BPQ.new 1 3).getD dummyQ

/-- `sampleB0` after `append(node at address 10, key 2)`. -/
def sampleB1 : BPQ :=
  match BPQ.append sampleB0 10 2 with
  | .ok bq => bq
  | .error bq => bq

/-- The queue `BPQueue::new(-3, 3)` of the spec scenario. -/
def c7s0 : BPQ := (BPQ.new (-3) 3).getD dummyQ

/-- `c7s0` after `append(node at address 20, key 3)` (top internal index 7). -/
def c7s1 : BPQ :=
  match BPQ.append c7s0 20 3 with
  | .ok bq => bq
  | .error bq => bq

/-- The state at the moment `increase_key(node, 1)` panics on `c7s1`. -/
def c7err : BPQ :=
  match BPQ.increase_key c7s1 20 1 with
  | .ok bq => bq
  | .error bq => bq

/-- The spec scenario of section 8: new(-3,3); append(A,0); increase_key(A,1);
decrease_key(A,1); detach(A), collecting every intermediate state. -/
def c3chain : Option (BPQ × BPQ × BPQ × BPQ × BPQ) :=
  (BPQ.new (-3) 3).bind fun s0 =>
  (BPQ.append s0 20 0).toOption.bind fun s1 =>
  (BPQ.increase_key s1 20 1).toOption.bind fun s2 =>
  (BPQ.decrease_key s2 20 1).toOption.bind fun s3 =>
  (BPQ.detach s3 20).toOption.bind fun s4 =>
  some (s0, s1, s2, s3, s4)

/-- An arbitrary concrete pre-state heap. -/
def h9 : Heap := fun _ => ⟨7, 7, 0⟩

/-- Observations of the spec scenario: after each of append, increase_key,
decrease_key the node's internal index, `max` and `get_max()`; after the
final detach, `max` and `is_empty()`. -/
def c3obs : Option (List (Nat × Nat × Int) × Nat × Bool) :=
  c3chain.map (fun s =>
    ([((s.2.1.heap 20).key, s.2.1.max, s.2.1.get_max),
      ((s.2.2.1.heap 20).key, s.2.2.1.max, s.2.2.1.get_max),
      ((s.2.2.2.1.heap 20).key, s.2.2.2.1.max, s.2.2.2.1.get_max)],
     s.2.2.2.2.max, s.2.2.2.2.is_empty))

/-! ## Lemmas -/

/-! ## Pointwise characterization of the heap operations -/

theorem hup_self (h : Heap) (x : Nat) (f : Node → Node) : hup h x f x = f (h x) := by
  simp [hup]

theorem hup_ne (h : Heap) (x : Nat) (f : Node → Node) {y : Nat} (hy : y ≠ x) :
    hup h x f y = h y := by
  simp [hup, hy]

theorem dlAttach_at_a (h : Heap) (s a : Nat) (h1 : s ≠ a) (h2 : (h s).next ≠ a) :
    dlAttach h s a a = ⟨(h s).next, s, (h a).key⟩ := by
  have h1' : a ≠ s := h1.symm
  have h2' : a ≠ (h s).next := fun e => h2 e.symm
  simp [dlAttach, hup, h1', h2']

theorem dlAttach_at_s (h : Heap) (s a : Nat) (h1 : s ≠ a) (h2 : (h s).next ≠ s) :
    dlAttach h s a s = { h s with next := a } := by
  have h2' : s ≠ (h s).next := fun e => h2 e.symm
  simp [dlAttach, hup, h1, h2']

theorem dlAttach_at_s_self (h : Heap) (s a : Nat) (h1 : s ≠ a) (h2 : (h s).next = s) :
    dlAttach h s a s = ⟨a, a, (h s).key⟩ := by
  simp [dlAttach, hup, h1, h2]

theorem dlAttach_at_sn (h : Heap) (s a : Nat) (h1 : (h s).next ≠ a) (h2 : (h s).next ≠ s) :
    dlAttach h s a ((h s).next) = { h ((h s).next) with prev := a } := by
  simp [dlAttach, hup, h1, h2]

theorem dlAttach_at_other (h : Heap) (s a x : Nat) (h1 : x ≠ a) (h2 : x ≠ s)
    (h3 : x ≠ (h s).next) : dlAttach h s a x = h x := by
  simp [dlAttach, hup, h1, h2, h3]

theorem dlAttach_key (h : Heap) (s a x : Nat) : (dlAttach h s a x).key = (h x).key := by
  unfold dlAttach hup
  dsimp only
  repeat' split
  all_goals rfl

theorem dlAttach_next_other (h : Heap) (s a x : Nat) (h1 : x ≠ a) (h2 : x ≠ s) :
    (dlAttach h s a x).next = (h x).next := by
  unfold dlAttach hup
  dsimp only
  simp only [if_neg h1, if_neg h2]
  split
  all_goals rfl

theorem dlAttach_prev_other (h : Heap) (s a x : Nat) (h1 : x ≠ a)
    (h2 : x ≠ (h s).next) : (dlAttach h s a x).prev = (h x).prev := by
  unfold dlAttach hup
  dsimp only
  simp only [if_neg h1, if_neg h2]
  split
  all_goals rfl

theorem dlDetach_at_p (h : Heap) (a : Nat) :
    (dlDetach h a ((h a).prev)).next = (h a).next := by
  unfold dlDetach hup
  dsimp only
  split
  all_goals simp_all

theorem dlDetach_at_n (h : Heap) (a : Nat) :
    (dlDetach h a ((h a).next)).prev = (h a).prev := by
  simp [dlDetach, hup]

theorem dlDetach_at_other (h : Heap) (a x : Nat) (h1 : x ≠ (h a).prev)
    (h2 : x ≠ (h a).next) : dlDetach h a x = h x := by
  simp [dlDetach, hup, h1, h2]

theorem dlDetach_next_other (h : Heap) (a x : Nat) (h1 : x ≠ (h a).prev) :
    (dlDetach h a x).next = (h x).next := by
  unfold dlDetach hup
  dsimp only
  simp only [if_neg h1]
  split
  all_goals rfl

theorem dlDetach_prev_other (h : Heap) (a x : Nat) (h1 : x ≠ (h a).next) :
    (dlDetach h a x).prev = (h x).prev := by
  unfold dlDetach hup
  dsimp only
  simp only [if_neg h1]
  split
  all_goals rfl

theorem dlDetach_key (h : Heap) (a x : Nat) : (dlDetach h a x).key = (h x).key := by
  unfold dlDetach hup
  dsimp only
  repeat' split
  all_goals rfl

@[simp] theorem pathOk_nil (h : Heap) : pathOk h [] := trivial

@[simp] theorem pathOk_single (h : Heap) (a : Nat) : pathOk h [a] := trivial

@[simp] theorem pathOk_cons_cons (h : Heap) (a b : Nat) (l : List Nat) :
    pathOk h (a :: b :: l) ↔
      (h a).next = b ∧ (h b).prev = a ∧ pathOk h (b :: l) := Iff.rfl

theorem pathOk_append_iff (h : Heap) (a : Nat) (v : List Nat) :
    ∀ u : List Nat, pathOk h (u ++ a :: v) ↔ pathOk h (u ++ [a]) ∧ pathOk h (a :: v)
  | [] => by simp
  | [x] => by simp [pathOk_cons_cons]; tauto
  | x :: y :: u => by
    have ih := pathOk_append_iff h a v (y :: u)
    simp only [List.cons_append, pathOk_cons_cons] at *
    tauto

theorem pathOk_congr (h h' : Heap) :
    ∀ l : List Nat,
      (∀ x ∈ l.dropLast, (h' x).next = (h x).next) →
      (∀ y ∈ l.drop 1, (h' y).prev = (h y).prev) →
      (pathOk h l ↔ pathOk h' l)
  | [] => by simp
  | [x] => by simp
  | x :: y :: l => by
    intro hn hp
    have ih := pathOk_congr h h' (y :: l)
      (fun z hz => hn z (by simp at hz ⊢; tauto))
      (fun z hz => hp z (by simp at hz ⊢; tauto))
    have hx : (h' x).next = (h x).next := hn x (by simp)
    have hy : (h' y).prev = (h y).prev := hp y (by simp)
    simp only [pathOk_cons_cons, hx, hy, ih]

theorem pathOk_congr_mem (h h' : Heap) (l : List Nat)
    (he : ∀ x ∈ l, h' x = h x) : pathOk h l ↔ pathOk h' l :=
  pathOk_congr h h' l
    (fun x hx => by rw [he x (List.dropLast_subset l hx)])
    (fun y hy => by rw [he y (List.drop_subset 1 l hy)])

theorem pathOk_pair_at (h : Heap) (u : List Nat) (p q : Nat) (v : List Nat)
    (hp : pathOk h (u ++ p :: q :: v)) : (h p).next = q ∧ (h q).prev = p := by
  have hsplit := (pathOk_append_iff h p (q :: v) u).1 hp
  exact ⟨hsplit.2.1, hsplit.2.2.1⟩

theorem ringOk_empty_iff (h : Heap) (hd : Nat) :
    ringOk h hd [] ↔ (h hd).next = hd ∧ (h hd).prev = hd := by
  simp [ringOk]

theorem ringOk_cons (h : Heap) (hd y : Nat) (ys : List Nat)
    (hr : ringOk h hd (y :: ys)) :
    (h hd).next = y ∧ (h y).prev = hd ∧ pathOk h (y :: ys ++ [hd]) := by
  unfold ringOk at hr
  simp only [List.cons_append, pathOk_cons_cons] at hr
  exact hr

theorem ringOk_concat (h : Heap) (hd s : Nat) (u : List Nat)
    (hr : ringOk h hd (u ++ [s])) :
    (h s).next = hd ∧ (h hd).prev = s ∧ pathOk h ((hd :: u) ++ [s]) := by
  unfold ringOk at hr
  have hsh : (hd :: (u ++ [s]) ++ [hd] : List Nat) = (hd :: u) ++ s :: [hd] := by simp
  rw [hsh, pathOk_append_iff] at hr
  exact ⟨hr.2.1, hr.2.2.1, hr.1⟩

/-- The next pointer of a list member never points back at itself, so the
assert of `Dllink::detach` passes on every resident member. -/
theorem ringOk_member_next_ne (h : Heap) (hd : Nat) (xs : List Nat) (x : Nat)
    (hr : ringOk h hd xs) (nd : (hd :: xs).Nodup) (hx : x ∈ xs) :
    (h x).next ≠ x := by
  obtain ⟨u, v, huv⟩ := List.append_of_mem hx
  subst huv
  unfold ringOk at hr
  have hsh : (hd :: (u ++ x :: v) ++ [hd] : List Nat) = (hd :: u) ++ x :: (v ++ [hd]) := by
    simp
  rw [hsh] at hr
  match v with
  | [] =>
    have hpair := pathOk_pair_at h (hd :: u) x hd [] hr
    rw [hpair.1]
    have hxhd : x ≠ hd := fun e => (List.nodup_cons.1 nd).1 (e ▸ hx)
    exact fun e => hxhd e.symm
  | b :: v' =>
    have hpair := pathOk_pair_at h (hd :: u) x b (v' ++ [hd]) hr
    rw [hpair.1]
    have nd2 : (x :: b :: v').Nodup :=
      ((List.nodup_cons.1 nd).2).sublist (List.sublist_append_right u (x :: b :: v'))
    have hxb : x ∉ b :: v' := (List.nodup_cons.1 nd2).1
    exact fun e => hxb (by simp [← e])

/-- Every node of a well-formed ring (head included) satisfies the intrusive
list invariant `n.next.prev == n` and `n.prev.next == n`. -/
theorem ringOk_linked (h : Heap) (hd : Nat) (xs : List Nat)
    (hr : ringOk h hd xs) :
    ∀ x ∈ hd :: xs, (h ((h x).next)).prev = x ∧ (h ((h x).prev)).next = x := by
  intro x hx
  constructor
  · -- the pair (x, successor of x)
    obtain ⟨u, v, huv⟩ := List.append_of_mem hx
    unfold ringOk at hr
    have hsh : (hd :: xs ++ [hd] : List Nat) = u ++ x :: (v ++ [hd]) := by
      rw [show (hd :: xs : List Nat) = u ++ x :: v from huv]; simp
    rw [hsh] at hr
    match v with
    | [] =>
      have hpair := pathOk_pair_at h u x hd [] hr
      rw [hpair.1]; exact hpair.2
    | b :: v' =>
      have hpair := pathOk_pair_at h u x b (v' ++ [hd]) hr
      rw [hpair.1]; exact hpair.2
  · -- the pair (predecessor of x, x)
    rcases List.mem_cons.1 hx with hxhd | hxxs
    · subst hxhd
      rcases List.eq_nil_or_concat xs with hnil | ⟨u, s, hus⟩
      · subst hnil
        have := (ringOk_empty_iff h x).1 hr
        rw [this.2, this.1]
      · rw [List.concat_eq_append] at hus
        subst hus
        have hc := ringOk_concat h x s u hr
        rw [hc.2.1, hc.1]
    · obtain ⟨u, v, huv⟩ := List.append_of_mem hxxs
      subst huv
      unfold ringOk at hr
      rcases List.eq_nil_or_concat (hd :: u) with hnil | ⟨w, q, hwq⟩
      · exact absurd hnil (by simp)
      · rw [List.concat_eq_append] at hwq
        have hsh : (hd :: (u ++ x :: v) ++ [hd] : List Nat) = w ++ q :: x :: (v ++ [hd]) := by
          have h0 : (hd :: (u ++ x :: v) ++ [hd] : List Nat) =
              (hd :: u) ++ (x :: (v ++ [hd])) := by simp
          rw [h0, hwq]
          simp
        rw [hsh] at hr
        have hpair := pathOk_pair_at h w q x (v ++ [hd]) hr
        rw [hpair.2, hpair.1]

/-- `Dllist::append` (attach behind `head.prev`) extends the ring at the
back. -/
theorem ringOk_attach_back (h : Heap) (hd a : Nat) (xs : List Nat)
    (hr : ringOk h hd xs) (nd : (hd :: xs).Nodup) (ha : a ∉ hd :: xs) :
    ringOk (dlAttach h ((h hd).prev) a) hd (xs ++ [a]) := by
  have hahd : a ≠ hd := fun e => ha (by simp [e])
  rcases List.eq_nil_or_concat xs with hnil | ⟨u, s, hus⟩
  · subst hnil
    have he := (ringOk_empty_iff h hd).1 hr
    rw [he.2]
    have hda : hd ≠ a := fun e => hahd e.symm
    have hhd2 : dlAttach h hd a hd = ⟨a, a, (h hd).key⟩ :=
      dlAttach_at_s_self h hd a hda he.1
    have hna : (h hd).next ≠ a := by rw [he.1]; exact hda
    have ha2 : dlAttach h hd a a = ⟨(h hd).next, hd, (h a).key⟩ :=
      dlAttach_at_a h hd a hda hna
    show pathOk _ (hd :: [a] ++ [hd])
    simp [pathOk_cons_cons, hhd2, ha2, he.1]
  · rw [List.concat_eq_append] at hus
    subst hus
    obtain ⟨hsn, hp, hpath⟩ := ringOk_concat h hd s u hr
    simp only [List.mem_cons, List.mem_append, List.mem_singleton] at ha
    push_neg at ha
    obtain ⟨ha1, ha2, ha3, -⟩ := ha
    have hdnotin : hd ∉ u ++ [s] := (List.nodup_cons.1 nd).1
    simp only [List.mem_append, List.mem_singleton] at hdnotin
    push_neg at hdnotin
    have hshd : s ≠ hd := fun e => hdnotin.2 e.symm
    have hsa : s ≠ a := fun e => ha3 e.symm
    have hna : (h s).next ≠ a := by rw [hsn]; exact fun e => ha1 e.symm
    have hns : (h s).next ≠ s := by rw [hsn]; exact fun e => hshd e.symm
    have hA : dlAttach h s a a = ⟨hd, s, (h a).key⟩ := by
      have := dlAttach_at_a h s a hsa hna
      rwa [hsn] at this
    have hS : dlAttach h s a s = { h s with next := a } := dlAttach_at_s h s a hsa hns
    have hHd : dlAttach h s a hd = { h hd with prev := a } := by
      have := dlAttach_at_sn h s a hna hns
      rwa [hsn] at this
    rw [hp]
    show pathOk _ (hd :: ((u ++ [s]) ++ [a]) ++ [hd])
    have hsh : (hd :: ((u ++ [s]) ++ [a]) ++ [hd] : List Nat) =
        (hd :: u) ++ s :: (a :: [hd]) := by simp
    rw [hsh, pathOk_append_iff]
    constructor
    · refine (pathOk_congr h _ ((hd :: u) ++ [s]) ?_ ?_).1 hpath
      · intro x hx
        rw [List.dropLast_concat] at hx
        rcases List.mem_cons.1 hx with hx1 | hx2
        · subst hx1
          exact dlAttach_next_other h s a x (fun e => ha1 e.symm) (fun e => hshd e.symm)
        · refine dlAttach_next_other h s a x (fun e => ha2 (e ▸ hx2)) ?_
          intro e
          have ndt : (u ++ [s]).Nodup := (List.nodup_cons.1 nd).2
          rw [List.nodup_append] at ndt
          exact ndt.2.2 (e ▸ hx2) (by simp)
      · intro y hy
        have hy2 : y ∈ u ++ [s] := by
          have : ((hd :: u) ++ [s] : List Nat) = hd :: (u ++ [s]) := by simp
          rw [this] at hy
          simpa using hy
        have hyne : y ≠ (h s).next := by
          rw [hsn]
          rcases List.mem_append.1 hy2 with hy3 | hy3
          · exact fun e => hdnotin.1 (e ▸ hy3)
          · rw [List.mem_singleton] at hy3
            subst hy3
            exact hshd
        have hya : y ≠ a := by
          rcases List.mem_append.1 hy2 with hy3 | hy3
          · exact fun e => ha2 (e ▸ hy3)
          · rw [List.mem_singleton] at hy3
            subst hy3
            exact hsa
        exact dlAttach_prev_other h s a y hya hyne
    · simp [pathOk_cons_cons, hS, hA, hHd]

/-- `Dllist::appendleft` (attach at the head) extends the ring at the
front. -/
theorem ringOk_attach_front (h : Heap) (hd a : Nat) (xs : List Nat)
    (hr : ringOk h hd xs) (nd : (hd :: xs).Nodup) (ha : a ∉ hd :: xs) :
    ringOk (dlAttach h hd a) hd (a :: xs) := by
  have hahd : a ≠ hd := fun e => ha (by simp [e])
  have hda : hd ≠ a := fun e => hahd e.symm
  cases xs with
  | nil =>
    have he := (ringOk_empty_iff h hd).1 hr
    have hhd2 : dlAttach h hd a hd = ⟨a, a, (h hd).key⟩ :=
      dlAttach_at_s_self h hd a hda he.1
    have hna : (h hd).next ≠ a := by rw [he.1]; exact hda
    have ha2 : dlAttach h hd a a = ⟨(h hd).next, hd, (h a).key⟩ :=
      dlAttach_at_a h hd a hda hna
    show pathOk _ (hd :: [a] ++ [hd])
    simp [pathOk_cons_cons, hhd2, ha2, he.1]
  | cons y ys =>
    obtain ⟨hn, hpy, hpath⟩ := ringOk_cons h hd y ys hr
    simp only [List.mem_cons] at ha
    push_neg at ha
    obtain ⟨ha1, ha2, ha3⟩ := ha
    have hdt : hd ∉ y :: ys := (List.nodup_cons.1 nd).1
    simp only [List.mem_cons] at hdt
    push_neg at hdt
    have hyhd : y ≠ hd := fun e => hdt.1 e.symm
    have hna : (h hd).next ≠ a := by rw [hn]; exact fun e => ha2 e.symm
    have hnhd : (h hd).next ≠ hd := by rw [hn]; exact hyhd
    have hA : dlAttach h hd a a = ⟨y, hd, (h a).key⟩ := by
      have := dlAttach_at_a h hd a hda hna
      rwa [hn] at this
    have hHd : dlAttach h hd a hd = { h hd with next := a } :=
      dlAttach_at_s h hd a hda hnhd
    have hY : dlAttach h hd a y = { h y with prev := a } := by
      have := dlAttach_at_sn h hd a hna hnhd
      rwa [hn] at this
    show pathOk _ (hd :: (a :: y :: ys) ++ [hd])
    simp only [List.cons_append, pathOk_cons_cons]
    refine ⟨by rw [hHd], by rw [hA], by rw [hA], by rw [hY], ?_⟩
    refine (pathOk_congr h _ (y :: ys ++ [hd]) ?_ ?_).1 hpath
    · intro x hx
      have hx2 : x ∈ y :: ys := by
        have : (y :: ys ++ [hd] : List Nat) = (y :: ys) ++ [hd] := by simp
        rw [this, List.dropLast_concat] at hx
        exact hx
      have hxa : x ≠ a := by
        rcases List.mem_cons.1 hx2 with hx3 | hx3
        · subst hx3; exact fun e => ha2 e.symm
        · exact fun e => ha3 (e ▸ hx3)
      have hxhd : x ≠ hd := by
        rcases List.mem_cons.1 hx2 with hx3 | hx3
        · subst hx3; exact hyhd
        · exact fun e => hdt.2 (e ▸ hx3)
      exact dlAttach_next_other h hd a x hxa hxhd
    · intro z hz
      simp only [List.drop_succ_cons, List.drop_zero] at hz
      have hza : z ≠ a := by
        rcases List.mem_append.1 hz with hz2 | hz2
        · exact fun e => ha3 (e ▸ hz2)
        · rw [List.mem_singleton] at hz2
          subst hz2
          exact fun e => ha1 e.symm
      have hzy : z ≠ (h hd).next := by
        rw [hn]
        have ndt : (y :: ys).Nodup := (List.nodup_cons.1 nd).2
        rcases List.mem_append.1 hz with hz2 | hz2
        · exact fun e => (List.nodup_cons.1 ndt).1 (e ▸ hz2)
        · rw [List.mem_singleton] at hz2
          subst hz2
          exact fun e => hyhd e.symm
      exact dlAttach_prev_other h hd a z hza hzy

/-- Detaching a resident member contracts the ring. -/
theorem ringOk_detach (h : Heap) (hd a : Nat) (u v : List Nat)
    (hr : ringOk h hd (u ++ a :: v)) (nd : (hd :: (u ++ a :: v)).Nodup) :
    ringOk (dlDetach h a) hd (u ++ v) := by
  unfold ringOk at hr ⊢
  have hsh : (hd :: (u ++ a :: v) ++ [hd] : List Nat) = (hd :: u) ++ a :: (v ++ [hd]) := by
    simp
  rw [hsh, pathOk_append_iff] at hr
  obtain ⟨P1, P2⟩ := hr
  rcases List.eq_nil_or_concat (hd :: u) with hnil | ⟨w, p, hwp⟩
  · exact absurd hnil (by simp)
  rw [List.concat_eq_append] at hwp
  rw [hwp] at P1
  have hsh2 : ((w ++ [p]) ++ [a] : List Nat) = w ++ p :: [a] := by simp
  rw [hsh2, pathOk_append_iff] at P1
  obtain ⟨PW, Ppa⟩ := P1
  have hpa : (h p).next = a := Ppa.1
  have hap : (h a).prev = p := Ppa.2.1
  rcases hq : v ++ [hd] with _ | ⟨c, rest⟩
  · exact absurd hq (by simp)
  rw [hq] at P2
  have hac : (h a).next = c := P2.1
  have hca : (h c).prev = a := P2.2.1
  have Pcr : pathOk h (c :: rest) := P2.2.2
  -- nodup bookkeeping
  have ndhu : (hd :: u).Nodup :=
    nd.sublist (List.Sublist.cons₂ hd (List.sublist_append_left u (a :: v)))
  have ndwp : (w ++ [p]).Nodup := by rw [← hwp]; exact ndhu
  have hpmem : p ∈ hd :: u := by rw [hwp]; simp
  have hdnotin : hd ∉ u ++ a :: v := (List.nodup_cons.1 nd).1
  simp only [List.mem_append, List.mem_cons] at hdnotin
  push_neg at hdnotin
  have ndt : (u ++ a :: v).Nodup := (List.nodup_cons.1 nd).2
  rw [List.nodup_append] at ndt
  have ndav : (a :: v).Nodup := ndt.2.1
  have disj : u.Disjoint (a :: v) := ndt.2.2
  have hcmem : c ∈ v ++ [hd] := by rw [hq]; simp
  -- the two changed cells: p loses its next to c, c gains prev p
  have hcv : c ∈ v ∨ c = hd := by simpa using hcmem
  have hcnp : ∀ x ∈ u, x ≠ c := by
    intro x hx e
    rcases hcv with hc1 | hc1
    · exact disj (e ▸ hx) (by simp [hc1])
    · exact hdnotin.1 (by rw [← hc1, ← e]; exact hx)
  have hpnv : ∀ x ∈ v, x ≠ p := by
    intro x hx e
    rcases List.mem_cons.1 hpmem with hp1 | hp1
    · exact hdnotin.2.2 (by rw [← hp1, ← e]; exact hx)
    · exact disj (e ▸ hp1) (by simp [hx])
  -- prefix path survives
  have PW2 : pathOk (dlDetach h a) (w ++ [p]) := by
    refine (pathOk_congr h _ (w ++ [p]) ?_ ?_).1 PW
    · intro x hx
      rw [List.dropLast_concat] at hx
      refine dlDetach_next_other h a x ?_
      rw [hap]
      rw [List.nodup_append] at ndwp
      exact fun e => ndwp.2.2 (e ▸ hx) (by simp)
    · intro y hy
      have hyu : y ∈ u := by
        have : (w ++ [p] : List Nat).drop 1 = (hd :: u).drop 1 := by rw [hwp]
        rw [this] at hy
        simpa using hy
      refine dlDetach_prev_other h a y ?_
      rw [hac]
      exact hcnp y hyu
  -- suffix path survives
  have PC2 : pathOk (dlDetach h a) (c :: rest) := by
    refine (pathOk_congr h _ (c :: rest) ?_ ?_).1 Pcr
    · intro x hx
      have hxv : x ∈ v := by
        have : (c :: rest : List Nat).dropLast = (v ++ [hd]).dropLast := by rw [hq]
        rw [this, List.dropLast_concat] at hx
        exact hx
      refine dlDetach_next_other h a x ?_
      rw [hap]
      exact hpnv x hxv
    · intro y hy
      refine dlDetach_prev_other h a y ?_
      rw [hac]
      have ndvh : (v ++ [hd]).Nodup := by
        rw [List.nodup_append]
        refine ⟨ndav.of_cons, by simp, ?_⟩
        intro x hx
        simp only [List.mem_singleton]
        exact fun e => hdnotin.2.2 (e ▸ hx)
      rw [hq, List.nodup_cons] at ndvh
      exact fun e => ndvh.1 (e ▸ hy)
  -- assemble
  have hshg : (hd :: (u ++ v) ++ [hd] : List Nat) = (w ++ [p]) ++ c :: rest := by
    have h0 : (hd :: (u ++ v) ++ [hd] : List Nat) = (hd :: u) ++ (v ++ [hd]) := by simp
    rw [h0, hwp, hq]
  rw [hshg]
  have hsh3 : ((w ++ [p]) ++ c :: rest : List Nat) = w ++ p :: c :: rest := by simp
  rw [hsh3, pathOk_append_iff]
  refine ⟨PW2, ?_⟩
  have hnp : (dlDetach h a p).next = c := by
    have := dlDetach_at_p h a
    rw [hap] at this
    rw [this, hac]
  have hpc : (dlDetach h a c).prev = p := by
    have := dlDetach_at_n h a
    rw [hac, hap] at this
    exact this
  exact ⟨hnp, hpc, PC2⟩

theorem ringOk_prev_hd_mem (h : Heap) (hd : Nat) (xs : List Nat)
    (hr : ringOk h hd xs) :
    (h hd).prev ∈ hd :: xs ∧ (h ((h hd).prev)).next = hd := by
  rcases List.eq_nil_or_concat xs with hnil | ⟨u, s, hus⟩
  · subst hnil
    have he := (ringOk_empty_iff h hd).1 hr
    rw [he.2]
    exact ⟨by simp, he.1⟩
  · rw [List.concat_eq_append] at hus
    subst hus
    obtain ⟨hsn, hp, -⟩ := ringOk_concat h hd s u hr
    rw [hp]
    exact ⟨by simp, hsn⟩

theorem ringOk_next_hd_mem (h : Heap) (hd : Nat) (xs : List Nat)
    (hr : ringOk h hd xs) : (h hd).next ∈ hd :: xs := by
  cases xs with
  | nil => rw [((ringOk_empty_iff h hd).1 hr).1]; simp
  | cons y ys => rw [(ringOk_cons h hd y ys hr).1]; simp

/-- The two neighbours of a resident member stay inside the ring. -/
theorem ringOk_neighbors (h : Heap) (hd : Nat) (xs : List Nat) (a : Nat)
    (hr : ringOk h hd xs) (hx : a ∈ xs) :
    (h a).prev ∈ hd :: xs ∧ (h a).next ∈ hd :: xs := by
  obtain ⟨u, v, huv⟩ := List.append_of_mem hx
  subst huv
  unfold ringOk at hr
  have hsh : (hd :: (u ++ a :: v) ++ [hd] : List Nat) = (hd :: u) ++ a :: (v ++ [hd]) := by
    simp
  rw [hsh, pathOk_append_iff] at hr
  obtain ⟨P1, P2⟩ := hr
  constructor
  · rcases List.eq_nil_or_concat (hd :: u) with hnil | ⟨w, p, hwp⟩
    · exact absurd hnil (by simp)
    · rw [List.concat_eq_append] at hwp
      rw [hwp] at P1
      have hsh2 : ((w ++ [p]) ++ [a] : List Nat) = w ++ p :: [a] := by simp
      rw [hsh2, pathOk_append_iff] at P1
      rw [P1.2.2.1]
      have : p ∈ hd :: u := by rw [hwp]; simp
      rcases List.mem_cons.1 this with h1 | h1
      · simp [h1]
      · simp [List.mem_append, h1]
  · rcases hq : v ++ [hd] with _ | ⟨c, rest⟩
    · exact absurd hq (by simp)
    · rw [hq] at P2
      rw [P2.1]
      have : c ∈ v ++ [hd] := by rw [hq]; simp
      rcases List.mem_append.1 this with h1 | h1
      · simp [List.mem_append, h1]
      · rw [List.mem_singleton] at h1
        simp [h1]

/-- `Dllist::is_empty` agrees with the ghost bucket contents. -/
theorem listIsEmpty_iff (h : Heap) (hd : Nat) (xs : List Nat)
    (hr : ringOk h hd xs) (hne : hd ∉ xs) :
    (listIsEmpty h hd = true ↔ xs = []) := by
  cases xs with
  | nil =>
    have he := (ringOk_empty_iff h hd).1 hr
    simp [listIsEmpty, he.1]
  | cons y ys =>
    have hy := (ringOk_cons h hd y ys hr).1
    have hyhd : y ≠ hd := fun e => hne (by simp [e])
    simp [listIsEmpty, hy, hyhd]

/-! ## Bucket-model helpers -/

theorem getD_set_self : ∀ (bm : List (List Nat)) (i : Nat) (l : List Nat),
    i < bm.length → (bm.set i l).getD i [] = l
  | _ :: _, 0, l, _ => rfl
  | b :: bm, i + 1, l, hlt => by
    have := getD_set_self bm i l (by simpa using hlt)
    simpa using this
  | [], i, l, hlt => by simp at hlt

theorem getD_set_ne : ∀ (bm : List (List Nat)) (i j : Nat) (l : List Nat),
    j ≠ i → (bm.set i l).getD j [] = bm.getD j []
  | [], _, _, _, _ => by simp
  | b :: bm, 0, 0, l, hne => absurd rfl hne
  | b :: bm, 0, j + 1, l, _ => by simp
  | b :: bm, i + 1, 0, l, _ => by simp
  | b :: bm, i + 1, j + 1, l, hne => by
    have := getD_set_ne bm i j l (fun e => hne (by rw [e]))
    simpa using this

/-! ## The rewind loop -/

theorem rewind_some (h : Heap) (h0 : listIsEmpty h (bhd 0) = false) :
    ∀ m, ∃ m2, rewind h m = some m2 ∧ m2 ≤ m ∧
      listIsEmpty h (bhd m2) = false ∧
      ∀ j, m2 < j → j ≤ m → listIsEmpty h (bhd j) = true
  | 0 =>
    ⟨0, by simp [rewind, h0], le_refl 0, h0,
      fun j hj hj2 => absurd (lt_of_lt_of_le hj hj2) (lt_irrefl 0)⟩
  | m + 1 => by
    by_cases he : listIsEmpty h (bhd (m + 1)) = true
    · obtain ⟨m2, h1, h2, h3, h4⟩ := rewind_some h h0 m
      refine ⟨m2, ?_, Nat.le_succ_of_le h2, h3, ?_⟩
      · simp [rewind, he, h1]
      · intro j hj hj2
        rcases Nat.lt_or_ge j (m + 1) with hlt | hge
        · exact h4 j hj (Nat.lt_succ_iff.1 hlt)
        · have hje : j = m + 1 := le_antisymm hj2 hge
          subst hje
          exact he
    · rw [Bool.not_eq_true] at he
      refine ⟨m + 1, by simp [rewind, he], le_refl _, he,
        fun j hj hj2 => absurd (lt_of_lt_of_le hj hj2) (lt_irrefl _)⟩

theorem WFc_ring_nd (bq : BPQ) (hc : WFc bq) (i : Nat) (hi : i < bq.high + 1) :
    (bhd i :: bq.bkt i).Nodup := by
  obtain ⟨-, -, -, hnd, -, hbig, -⟩ := hc
  rw [List.nodup_cons]
  refine ⟨fun hmem => ?_, hnd i hi⟩
  have := hbig i hi _ hmem
  simp only [bhd] at this
  omega

theorem WFc_head_notin (bq : BPQ) (hc : WFc bq) (i j : Nat) (hi : i < bq.high + 1)
    (hj : j < bq.high + 1) : bhd i ∉ bq.bkt j := by
  obtain ⟨-, -, -, -, -, hbig, -⟩ := hc
  intro hmem
  have := hbig j hj _ hmem
  simp only [bhd] at this
  omega

/-- Bucket emptiness read off the heap agrees with the ghost model. -/
theorem WFc_isEmpty_iff (bq : BPQ) (hc : WFc bq) (i : Nat) (hi : i < bq.high + 1) :
    (listIsEmpty bq.heap (bhd i) = true ↔ bq.bkt i = []) :=
  listIsEmpty_iff bq.heap (bhd i) (bq.bkt i) (hc.2.2.1 i hi)
    (WFc_head_notin bq hc i i hi hi)

/-- Bucket 0 always holds the sentinel, so its emptiness test is false. -/
theorem WFc_bucket0_nonempty (bq : BPQ) (hc : WFc bq) :
    listIsEmpty bq.heap (bhd 0) = false := by
  have h0 := (WFc_isEmpty_iff bq hc 0 (by omega))
  rw [hc.2.1] at h0
  simp only [List.cons_ne_nil, iff_false] at h0
  exact Bool.not_eq_true _ ▸ h0

/-! ## Preservation of `WFc` by the primitive bucket operations -/

/-- Writing `it.data.0` of a non-resident node preserves well-formedness. -/
theorem WFc_setkey (bq : BPQ) (a idx : Nat) (hc : WFc bq) (hfr : fresh bq a) :
    WFc { bq with heap := hup bq.heap a (fun nd => { nd with key := idx }) } := by
  obtain ⟨hlen, hb0, hrings, hnd, hdisj, hbig, hkeys⟩ := hc
  obtain ⟨hfa, hfb⟩ := hfr
  refine ⟨hlen, hb0, ?_, hnd, hdisj, hbig, ?_⟩
  · intro i hi
    have hi2 : i < bq.high + 1 := hi
    show ringOk (hup bq.heap a (fun nd => { nd with key := idx })) (bhd i) (bq.bkt i)
    have hcells : ∀ x ∈ (bhd i :: bq.bkt i ++ [bhd i] : List Nat),
        hup bq.heap a (fun nd => { nd with key := idx }) x = bq.heap x := by
      intro x hx
      apply hup_ne
      intro e
      rcases List.mem_cons.1 hx with e1 | e1
      · rw [e] at e1
        simp only [bhd] at e1
        omega
      · rcases List.mem_append.1 e1 with e2 | e2
        · exact hfb i hi2 (e ▸ e2)
        · rw [List.mem_singleton, e] at e2
          simp only [bhd] at e2
          omega
    exact (pathOk_congr_mem bq.heap _ _ hcells).1 (hrings i hi2)
  · intro i hi hpos x hx
    have hi2 : i < bq.high + 1 := hi
    have hx2 : x ∈ bq.bkt i := hx
    show (hup bq.heap a (fun nd => { nd with key := idx }) x).key = i
    rw [hup_ne bq.heap a _ (fun e => hfb i hi2 (e ▸ hx2))]
    exact hkeys i hi2 hpos x hx2

/-- `bucket[idx].append(node)` (tail insertion) preserves well-formedness
and appends the node to the ghost contents of bucket `idx`. -/
theorem WFc_insert_back (bq : BPQ) (a idx : Nat) (hc : WFc bq) (hfr : fresh bq a)
    (hkey : (bq.heap a).key = idx) (h1 : 0 < idx) (h2 : idx < bq.high + 1) :
    WFc { bq with heap := listAppend bq.heap (bhd idx) a,
                  bmodel := bq.bmodel.set idx (bq.bkt idx ++ [a]) } := by
  obtain ⟨hlen, hb0, hrings, hnd, hdisj, hbig, hkeys⟩ := hc
  obtain ⟨hfa, hfb⟩ := hfr
  have hbkt : ∀ j, j ≠ idx →
      (bq.bmodel.set idx (bq.bkt idx ++ [a])).getD j [] = bq.bkt j :=
    fun j hj => getD_set_ne _ idx j _ hj
  have hbkt2 : (bq.bmodel.set idx (bq.bkt idx ++ [a])).getD idx [] = bq.bkt idx ++ [a] :=
    getD_set_self _ idx _ (by rw [hlen]; exact h2)
  have hrI := hrings idx h2
  obtain ⟨hsmem, hsnext⟩ := ringOk_prev_hd_mem bq.heap (bhd idx) (bq.bkt idx) hrI
  have hanotr : a ∉ bhd idx :: bq.bkt idx := by
    intro hmem
    rcases List.mem_cons.1 hmem with e | e
    · simp only [bhd] at e; omega
    · exact hfb idx h2 e
  have hndI : (bhd idx :: bq.bkt idx).Nodup := by
    rw [List.nodup_cons]
    refine ⟨fun hmem => ?_, hnd idx h2⟩
    have := hbig idx h2 _ hmem
    simp only [bhd] at this
    omega
  have hframe : ∀ x, x ∉ bhd idx :: bq.bkt idx → x ≠ a →
      listAppend bq.heap (bhd idx) a x = bq.heap x := by
    intro x hx hxa
    refine dlAttach_at_other bq.heap _ a x hxa (fun e => hx (e ▸ hsmem)) ?_
    rw [hsnext]
    exact fun e => hx (by simp [e])
  have houtr : ∀ j, j < bq.high + 1 → j ≠ idx →
      ∀ x ∈ (bhd j :: bq.bkt j ++ [bhd j] : List Nat),
        listAppend bq.heap (bhd idx) a x = bq.heap x := by
    intro j hj hjne x hx
    simp only [List.mem_cons, List.mem_append, List.mem_singleton] at hx
    have hxcase : x = bhd j ∨ x ∈ bq.bkt j := by tauto
    refine hframe x ?_ ?_
    · intro hmem
      rcases List.mem_cons.1 hmem with e | e
      · rcases hxcase with e2 | e2
        · rw [e2] at e
          simp only [bhd] at e
          omega
        · have := hbig j hj _ e2
          rw [e] at this
          simp only [bhd] at this
          omega
      · rcases hxcase with e2 | e2
        · have := hbig idx h2 _ e
          rw [e2] at this
          simp only [bhd] at this
          omega
        · exact hdisj j hj idx h2 hjne x e2 e
    · rcases hxcase with e2 | e2
      · rw [e2]
        intro e
        simp only [bhd] at e
        omega
      · exact fun e => hfb j hj (e ▸ e2)
  refine ⟨by rw [List.length_set]; exact hlen, ?_, ?_, ?_, ?_, ?_, ?_⟩
  · show (bq.bmodel.set idx (bq.bkt idx ++ [a])).getD 0 [] = _
    rw [hbkt 0 (by omega)]
    exact hb0
  · intro i hi
    show ringOk (listAppend bq.heap (bhd idx) a) (bhd i) _
    by_cases hieq : i = idx
    · subst hieq
      show ringOk _ _ ((bq.bmodel.set i (bq.bkt i ++ [a])).getD i [])
      rw [hbkt2]
      exact ringOk_attach_back bq.heap (bhd i) a (bq.bkt i) hrI hndI hanotr
    · show ringOk _ _ ((bq.bmodel.set idx (bq.bkt idx ++ [a])).getD i [])
      rw [hbkt i hieq]
      exact (pathOk_congr_mem bq.heap _ _ (houtr i hi hieq)).1 (hrings i hi)
  · intro i hi
    by_cases hieq : i = idx
    · subst hieq
      show ((bq.bmodel.set i (bq.bkt i ++ [a])).getD i []).Nodup
      rw [hbkt2]
      rw [List.nodup_append]
      refine ⟨hnd i hi, by simp, ?_⟩
      intro x hx
      simp only [List.mem_singleton]
      exact fun e => hfb i hi (e ▸ hx)
    · show ((bq.bmodel.set idx (bq.bkt idx ++ [a])).getD i []).Nodup
      rw [hbkt i hieq]
      exact hnd i hi
  · intro i hi j hj hij x hx
    show x ∉ (bq.bmodel.set idx (bq.bkt idx ++ [a])).getD j []
    have hx2 : x ∈ (bq.bmodel.set idx (bq.bkt idx ++ [a])).getD i [] := hx
    by_cases hieq : i = idx
    · subst hieq
      rw [hbkt2] at hx2
      rw [hbkt j (fun e => hij e.symm)]
      rcases List.mem_append.1 hx2 with e | e
      · exact hdisj i hi j hj hij x e
      · rw [List.mem_singleton] at e
        subst e
        exact hfb j hj
    · rw [hbkt i hieq] at hx2
      by_cases hjeq : j = idx
      · subst hjeq
        rw [hbkt2]
        intro hmem
        rcases List.mem_append.1 hmem with e | e
        · exact hdisj i hi j hj hij x hx2 e
        · rw [List.mem_singleton] at e
          subst e
          exact hfb i hi hx2
      · rw [hbkt j hjeq]
        exact hdisj i hi j hj hij x hx2
  · intro i hi x hx
    have hx2 : x ∈ (bq.bmodel.set idx (bq.bkt idx ++ [a])).getD i [] := hx
    by_cases hieq : i = idx
    · subst hieq
      rw [hbkt2] at hx2
      rcases List.mem_append.1 hx2 with e | e
      · exact hbig i hi x e
      · rw [List.mem_singleton] at e
        subst e
        exact hfa
    · rw [hbkt i hieq] at hx2
      exact hbig i hi x hx2
  · intro i hi hpos x hx
    have hx2 : x ∈ (bq.bmodel.set idx (bq.bkt idx ++ [a])).getD i [] := hx
    show (listAppend bq.heap (bhd idx) a x).key = i
    have hkx : (listAppend bq.heap (bhd idx) a x).key = (bq.heap x).key :=
      dlAttach_key bq.heap _ a x
    rw [hkx]
    by_cases hieq : i = idx
    · subst hieq
      rw [hbkt2] at hx2
      rcases List.mem_append.1 hx2 with e | e
      · exact hkeys i hi hpos x e
      · rw [List.mem_singleton] at e
        subst e
        exact hkey
    · rw [hbkt i hieq] at hx2
      exact hkeys i hi hpos x hx2

/-- `bucket[idx].appendleft(node)` (head insertion) preserves
well-formedness and prepends the node to the ghost contents. -/
theorem WFc_insert_front (bq : BPQ) (a idx : Nat) (hc : WFc bq) (hfr : fresh bq a)
    (hkey : (bq.heap a).key = idx) (h1 : 0 < idx) (h2 : idx < bq.high + 1) :
    WFc { bq with heap := listAppendleft bq.heap (bhd idx) a,
                  bmodel := bq.bmodel.set idx (a :: bq.bkt idx) } := by
  obtain ⟨hlen, hb0, hrings, hnd, hdisj, hbig, hkeys⟩ := hc
  obtain ⟨hfa, hfb⟩ := hfr
  have hbkt : ∀ j, j ≠ idx →
      (bq.bmodel.set idx (a :: bq.bkt idx)).getD j [] = bq.bkt j :=
    fun j hj => getD_set_ne _ idx j _ hj
  have hbkt2 : (bq.bmodel.set idx (a :: bq.bkt idx)).getD idx [] = a :: bq.bkt idx :=
    getD_set_self _ idx _ (by rw [hlen]; exact h2)
  have hrI := hrings idx h2
  have hnmem := ringOk_next_hd_mem bq.heap (bhd idx) (bq.bkt idx) hrI
  have hanotr : a ∉ bhd idx :: bq.bkt idx := by
    intro hmem
    rcases List.mem_cons.1 hmem with e | e
    · simp only [bhd] at e; omega
    · exact hfb idx h2 e
  have hndI : (bhd idx :: bq.bkt idx).Nodup := by
    rw [List.nodup_cons]
    refine ⟨fun hmem => ?_, hnd idx h2⟩
    have := hbig idx h2 _ hmem
    simp only [bhd] at this
    omega
  have hframe : ∀ x, x ∉ bhd idx :: bq.bkt idx → x ≠ a →
      listAppendleft bq.heap (bhd idx) a x = bq.heap x := by
    intro x hx hxa
    refine dlAttach_at_other bq.heap _ a x hxa (fun e => hx (by simp [e])) ?_
    exact fun e => hx (e ▸ hnmem)
  have houtr : ∀ j, j < bq.high + 1 → j ≠ idx →
      ∀ x ∈ (bhd j :: bq.bkt j ++ [bhd j] : List Nat),
        listAppendleft bq.heap (bhd idx) a x = bq.heap x := by
    intro j hj hjne x hx
    simp only [List.mem_cons, List.mem_append, List.mem_singleton] at hx
    have hxcase : x = bhd j ∨ x ∈ bq.bkt j := by tauto
    refine hframe x ?_ ?_
    · intro hmem
      rcases List.mem_cons.1 hmem with e | e
      · rcases hxcase with e2 | e2
        · rw [e2] at e
          simp only [bhd] at e
          omega
        · have := hbig j hj _ e2
          rw [e] at this
          simp only [bhd] at this
          omega
      · rcases hxcase with e2 | e2
        · have := hbig idx h2 _ e
          rw [e2] at this
          simp only [bhd] at this
          omega
        · exact hdisj j hj idx h2 hjne x e2 e
    · rcases hxcase with e2 | e2
      · rw [e2]
        intro e
        simp only [bhd] at e
        omega
      · exact fun e => hfb j hj (e ▸ e2)
  refine ⟨by rw [List.length_set]; exact hlen, ?_, ?_, ?_, ?_, ?_, ?_⟩
  · show (bq.bmodel.set idx (a :: bq.bkt idx)).getD 0 [] = _
    rw [hbkt 0 (by omega)]
    exact hb0
  · intro i hi
    show ringOk (listAppendleft bq.heap (bhd idx) a) (bhd i) _
    by_cases hieq : i = idx
    · subst hieq
      show ringOk _ _ ((bq.bmodel.set i (a :: bq.bkt i)).getD i [])
      rw [hbkt2]
      exact ringOk_attach_front bq.heap (bhd i) a (bq.bkt i) hrI hndI hanotr
    · show ringOk _ _ ((bq.bmodel.set idx (a :: bq.bkt idx)).getD i [])
      rw [hbkt i hieq]
      exact (pathOk_congr_mem bq.heap _ _ (houtr i hi hieq)).1 (hrings i hi)
  · intro i hi
    by_cases hieq : i = idx
    · subst hieq
      show ((bq.bmodel.set i (a :: bq.bkt i)).getD i []).Nodup
      rw [hbkt2, List.nodup_cons]
      exact ⟨fun e => hfb i hi e, hnd i hi⟩
    · show ((bq.bmodel.set idx (a :: bq.bkt idx)).getD i []).Nodup
      rw [hbkt i hieq]
      exact hnd i hi
  · intro i hi j hj hij x hx
    show x ∉ (bq.bmodel.set idx (a :: bq.bkt idx)).getD j []
    have hx2 : x ∈ (bq.bmodel.set idx (a :: bq.bkt idx)).getD i [] := hx
    by_cases hieq : i = idx
    · subst hieq
      rw [hbkt2] at hx2
      rw [hbkt j (fun e => hij e.symm)]
      rcases List.mem_cons.1 hx2 with e | e
      · subst e
        exact hfb j hj
      · exact hdisj i hi j hj hij x e
    · rw [hbkt i hieq] at hx2
      by_cases hjeq : j = idx
      · subst hjeq
        rw [hbkt2]
        intro hmem
        rcases List.mem_cons.1 hmem with e | e
        · subst e
          exact hfb i hi hx2
        · exact hdisj i hi j hj hij x hx2 e
      · rw [hbkt j hjeq]
        exact hdisj i hi j hj hij x hx2
  · intro i hi x hx
    have hx2 : x ∈ (bq.bmodel.set idx (a :: bq.bkt idx)).getD i [] := hx
    by_cases hieq : i = idx
    · subst hieq
      rw [hbkt2] at hx2
      rcases List.mem_cons.1 hx2 with e | e
      · subst e
        exact hfa
      · exact hbig i hi x e
    · rw [hbkt i hieq] at hx2
      exact hbig i hi x hx2
  · intro i hi hpos x hx
    have hx2 : x ∈ (bq.bmodel.set idx (a :: bq.bkt idx)).getD i [] := hx
    show (listAppendleft bq.heap (bhd idx) a x).key = i
    have hkx : (listAppendleft bq.heap (bhd idx) a x).key = (bq.heap x).key :=
      dlAttach_key bq.heap _ a x
    rw [hkx]
    by_cases hieq : i = idx
    · subst hieq
      rw [hbkt2] at hx2
      rcases List.mem_cons.1 hx2 with e | e
      · subst e
        exact hkey
      · exact hkeys i hi hpos x e
    · rw [hbkt i hieq] at hx2
      exact hkeys i hi hpos x hx2

/-- `it.detach()` of a resident node preserves well-formedness and removes
the node from the ghost contents of its bucket. -/
theorem WFc_remove (bq : BPQ) (a i : Nat) (u v : List Nat) (hc : WFc bq)
    (hi : 0 < i) (hi2 : i < bq.high + 1) (hbkt : bq.bkt i = u ++ a :: v) :
    WFc { bq with heap := dlDetach bq.heap a,
                  bmodel := bq.bmodel.set i (u ++ v) } := by
  obtain ⟨hlen, hb0, hrings, hnd, hdisj, hbig, hkeys⟩ := hc
  have hmem : a ∈ bq.bkt i := by rw [hbkt]; simp
  have hbktj : ∀ j, j ≠ i → (bq.bmodel.set i (u ++ v)).getD j [] = bq.bkt j :=
    fun j hj => getD_set_ne _ i j _ hj
  have hbkt2 : (bq.bmodel.set i (u ++ v)).getD i [] = u ++ v :=
    getD_set_self _ i _ (by rw [hlen]; exact hi2)
  have hrI := hrings i hi2
  obtain ⟨hpmem, hnmem⟩ := ringOk_neighbors bq.heap (bhd i) (bq.bkt i) a hrI hmem
  have hndI : (bhd i :: bq.bkt i).Nodup := by
    rw [List.nodup_cons]
    refine ⟨fun hm => ?_, hnd i hi2⟩
    have := hbig i hi2 _ hm
    simp only [bhd] at this
    omega
  have hsubmem : ∀ x, x ∈ u ++ v → x ∈ bq.bkt i := by
    intro x hx
    rw [hbkt]
    rcases List.mem_append.1 hx with e | e
    · exact List.mem_append.2 (Or.inl e)
    · exact List.mem_append.2 (Or.inr (List.mem_cons.2 (Or.inr e)))
  have hframe : ∀ x, x ∉ bhd i :: bq.bkt i → dlDetach bq.heap a x = bq.heap x := by
    intro x hx
    exact dlDetach_at_other bq.heap a x (fun e => hx (e ▸ hpmem)) (fun e => hx (e ▸ hnmem))
  have houtr : ∀ j, j < bq.high + 1 → j ≠ i →
      ∀ x ∈ (bhd j :: bq.bkt j ++ [bhd j] : List Nat),
        dlDetach bq.heap a x = bq.heap x := by
    intro j hj hjne x hx
    simp only [List.mem_cons, List.mem_append, List.mem_singleton] at hx
    have hxcase : x = bhd j ∨ x ∈ bq.bkt j := by tauto
    refine hframe x ?_
    intro hm
    rcases List.mem_cons.1 hm with e | e
    · rcases hxcase with e2 | e2
      · rw [e2] at e
        simp only [bhd] at e
        omega
      · have := hbig j hj _ e2
        rw [e] at this
        simp only [bhd] at this
        omega
    · rcases hxcase with e2 | e2
      · have := hbig i hi2 _ e
        rw [e2] at this
        simp only [bhd] at this
        omega
      · exact hdisj j hj i hi2 hjne x e2 e
  refine ⟨by rw [List.length_set]; exact hlen, ?_, ?_, ?_, ?_, ?_, ?_⟩
  · show (bq.bmodel.set i (u ++ v)).getD 0 [] = _
    rw [hbktj 0 (by omega)]
    exact hb0
  · intro j hj
    show ringOk (dlDetach bq.heap a) (bhd j) _
    by_cases hjeq : j = i
    · subst hjeq
      show ringOk _ _ ((bq.bmodel.set j (u ++ v)).getD j [])
      rw [hbkt2]
      refine ringOk_detach bq.heap (bhd j) a u v ?_ ?_
      · rw [← hbkt]; exact hrI
      · rw [← hbkt]; exact hndI
    · show ringOk _ _ ((bq.bmodel.set i (u ++ v)).getD j [])
      rw [hbktj j hjeq]
      exact (pathOk_congr_mem bq.heap _ _ (houtr j hj hjeq)).1 (hrings j hj)
  · intro j hj
    by_cases hjeq : j = i
    · subst hjeq
      show ((bq.bmodel.set j (u ++ v)).getD j []).Nodup
      rw [hbkt2]
      have : (u ++ a :: v).Nodup := by rw [← hbkt]; exact hnd j hj
      exact this.sublist ((List.Sublist.refl u).append (List.sublist_cons_self a v))
    · show ((bq.bmodel.set i (u ++ v)).getD j []).Nodup
      rw [hbktj j hjeq]
      exact hnd j hj
  · intro j hj j2 hj2 hne x hx
    show x ∉ (bq.bmodel.set i (u ++ v)).getD j2 []
    have hx2 : x ∈ (bq.bmodel.set i (u ++ v)).getD j [] := hx
    by_cases hjeq : j = i
    · subst hjeq
      rw [hbkt2] at hx2
      rw [hbktj j2 (fun e => hne e.symm)]
      exact hdisj j hj j2 hj2 hne x (hsubmem x hx2)
    · rw [hbktj j hjeq] at hx2
      by_cases hj2eq : j2 = i
      · subst hj2eq
        rw [hbkt2]
        intro hm
        exact hdisj j hj j2 hj2 hne x hx2 (hsubmem x hm)
      · rw [hbktj j2 hj2eq]
        exact hdisj j hj j2 hj2 hne x hx2
  · intro j hj x hx
    have hx2 : x ∈ (bq.bmodel.set i (u ++ v)).getD j [] := hx
    by_cases hjeq : j = i
    · subst hjeq
      rw [hbkt2] at hx2
      exact hbig j hj x (hsubmem x hx2)
    · rw [hbktj j hjeq] at hx2
      exact hbig j hj x hx2
  · intro j hj hpos x hx
    have hx2 : x ∈ (bq.bmodel.set i (u ++ v)).getD j [] := hx
    show (dlDetach bq.heap a x).key = j
    rw [dlDetach_key]
    by_cases hjeq : j = i
    · subst hjeq
      rw [hbkt2] at hx2
      exact hkeys j hj hpos x (hsubmem x hx2)
    · rw [hbktj j hjeq] at hx2
      exact hkeys j hj hpos x hx2

/-! ## Operation-level lemmas on well-formed states -/

theorem append_ok (bq : BPQ) (a : Nat) (k : Int) (idx : Nat)
    (hidx : (k - bq.offset).toNat = idx) (hwf : WF bq) (hfr : fresh bq a)
    (h1 : 0 < idx) (h2 : idx ≤ bq.high) :
    ∃ bq', BPQ.append bq a k = .ok bq' ∧ WF bq' ∧
      bq'.offset = bq.offset ∧ bq'.high = bq.high ∧
      bq'.max = (if bq.max < idx then idx else bq.max) ∧
      bq'.bkt idx = bq.bkt idx ++ [a] ∧
      (∀ j, j ≠ idx → bq'.bkt j = bq.bkt j) ∧
      (bq'.heap a).key = idx := by
  obtain ⟨hc, hmax, habove, hmne⟩ := hwf
  have hok : bq.offset < k := by omega
  have h2' : idx < bq.high + 1 := by omega
  have hlen := hc.1
  have heq : BPQ.append bq a k = .ok
      { bq with heap := listAppend (hup bq.heap a (fun nd => { nd with key := idx }))
                  (bhd idx) a
                max := if bq.max < idx then idx else bq.max
                bmodel := bq.bmodel.set idx (bq.bkt idx ++ [a]) } := by
    unfold BPQ.append
    rw [if_pos hok, hidx, if_pos h2']
    rfl
  have hcs1 : WFc { bq with heap := hup bq.heap a (fun nd => { nd with key := idx }) } :=
    WFc_setkey bq a idx hc hfr
  have hkey1 : ((hup bq.heap a (fun nd => { nd with key := idx })) a).key = idx := by
    rw [hup_self]
  have hcs2 := WFc_insert_back
    { bq with heap := hup bq.heap a (fun nd => { nd with key := idx }) } a idx hcs1 hfr
    hkey1 h1 h2'
  have hbself : (bq.bmodel.set idx (bq.bkt idx ++ [a])).getD idx [] = bq.bkt idx ++ [a] :=
    getD_set_self _ idx _ (by rw [hlen]; exact h2')
  have hbne : ∀ j, j ≠ idx →
      (bq.bmodel.set idx (bq.bkt idx ++ [a])).getD j [] = bq.bkt j :=
    fun j hj => getD_set_ne _ idx j _ hj
  refine ⟨_, heq, ⟨hcs2, ?_, ?_, ?_⟩, rfl, rfl, rfl, hbself, hbne, ?_⟩
  · show (if bq.max < idx then idx else bq.max) < bq.high + 1
    split <;> omega
  · intro j hj hgt
    have hj2 : j < bq.high + 1 := hj
    have hgt2 : (if bq.max < idx then idx else bq.max) < j := hgt
    have hjidx : j ≠ idx := by split at hgt2 <;> omega
    show (bq.bmodel.set idx (bq.bkt idx ++ [a])).getD j [] = []
    rw [hbne j hjidx]
    refine habove j hj2 ?_
    split at hgt2 <;> omega
  · show (bq.bmodel.set idx (bq.bkt idx ++ [a])).getD
      (if bq.max < idx then idx else bq.max) [] ≠ []
    by_cases hlt : bq.max < idx
    · rw [if_pos hlt, hbself]
      simp
    · rw [if_neg hlt]
      by_cases hmeq : bq.max = idx
      · rw [hmeq, hbself]
        simp
      · rw [hbne bq.max hmeq]
        exact hmne
  · show (listAppend (hup bq.heap a (fun nd => { nd with key := idx })) (bhd idx) a a).key
        = idx
    simp only [listAppend]
    rw [dlAttach_key, hup_self]

theorem appendleft_ok (bq : BPQ) (a : Nat) (k : Int) (idx : Nat)
    (hidx : (k - bq.offset).toNat = idx) (hwf : WF bq) (hfr : fresh bq a)
    (h1 : 0 < idx) (h2 : idx ≤ bq.high) :
    ∃ bq', BPQ.appendleft bq a k = .ok bq' ∧ WF bq' ∧
      bq'.offset = bq.offset ∧ bq'.high = bq.high ∧
      bq'.max = (if bq.max < idx then idx else bq.max) ∧
      bq'.bkt idx = a :: bq.bkt idx ∧
      (∀ j, j ≠ idx → bq'.bkt j = bq.bkt j) ∧
      (bq'.heap a).key = idx := by
  obtain ⟨hc, hmax, habove, hmne⟩ := hwf
  have hok : bq.offset < k := by omega
  have h2' : idx < bq.high + 1 := by omega
  have hlen := hc.1
  have heq : BPQ.appendleft bq a k = .ok
      { bq with heap := listAppendleft (hup bq.heap a (fun nd => { nd with key := idx }))
                  (bhd idx) a
                max := if bq.max < idx then idx else bq.max
                bmodel := bq.bmodel.set idx (a :: bq.bkt idx) } := by
    unfold BPQ.appendleft
    rw [if_pos hok, hidx, if_pos h2']
    rfl
  have hcs1 : WFc { bq with heap := hup bq.heap a (fun nd => { nd with key := idx }) } :=
    WFc_setkey bq a idx hc hfr
  have hkey1 : ((hup bq.heap a (fun nd => { nd with key := idx })) a).key = idx := by
    rw [hup_self]
  have hcs2 := WFc_insert_front
    { bq with heap := hup bq.heap a (fun nd => { nd with key := idx }) } a idx hcs1 hfr
    hkey1 h1 h2'
  have hbself : (bq.bmodel.set idx (a :: bq.bkt idx)).getD idx [] = a :: bq.bkt idx :=
    getD_set_self _ idx _ (by rw [hlen]; exact h2')
  have hbne : ∀ j, j ≠ idx →
      (bq.bmodel.set idx (a :: bq.bkt idx)).getD j [] = bq.bkt j :=
    fun j hj => getD_set_ne _ idx j _ hj
  refine ⟨_, heq, ⟨hcs2, ?_, ?_, ?_⟩, rfl, rfl, rfl, hbself, hbne, ?_⟩
  · show (if bq.max < idx then idx else bq.max) < bq.high + 1
    split <;> omega
  · intro j hj hgt
    have hj2 : j < bq.high + 1 := hj
    have hgt2 : (if bq.max < idx then idx else bq.max) < j := hgt
    have hjidx : j ≠ idx := by split at hgt2 <;> omega
    show (bq.bmodel.set idx (a :: bq.bkt idx)).getD j [] = []
    rw [hbne j hjidx]
    refine habove j hj2 ?_
    split at hgt2 <;> omega
  · show (bq.bmodel.set idx (a :: bq.bkt idx)).getD
      (if bq.max < idx then idx else bq.max) [] ≠ []
    by_cases hlt : bq.max < idx
    · rw [if_pos hlt, hbself]
      simp
    · rw [if_neg hlt]
      by_cases hmeq : bq.max = idx
      · rw [hmeq, hbself]
        simp
      · rw [hbne bq.max hmeq]
        exact hmne
  · show (listAppendleft (hup bq.heap a (fun nd => { nd with key := idx })) (bhd idx) a a).key
        = idx
    simp only [listAppendleft]
    rw [dlAttach_key, hup_self]

/-- The rewind loop restores the `max` invariants on any well-formed-core
state whose buckets above `max` are empty: it terminates (the sentinel keeps
bucket 0 non-empty) on some `m2 ≤ max`. -/
theorem rewind_WF (bq : BPQ) (hc : WFc bq) (hmaxlt : bq.max < bq.high + 1)
    (habove : ∀ i < bq.high + 1, bq.max < i → bq.bkt i = []) :
    ∃ m2, rewind bq.heap bq.max = some m2 ∧ m2 ≤ bq.max ∧
      WF { bq with max := m2 } := by
  have h0 : listIsEmpty bq.heap (bhd 0) = false := WFc_bucket0_nonempty bq hc
  obtain ⟨m2, hr, hle, hne, hemp⟩ := rewind_some bq.heap h0 bq.max
  refine ⟨m2, hr, hle, hc, show m2 < bq.high + 1 by omega, ?_, ?_⟩
  · intro j hj hgt
    have hj2 : j < bq.high + 1 := hj
    have hgt2 : m2 < j := hgt
    show bq.bkt j = []
    rcases Nat.lt_or_ge bq.max j with hlt | hge
    · exact habove j hj2 hlt
    · exact (WFc_isEmpty_iff bq hc j hj2).1 (hemp j hgt2 hge)
  · show bq.bkt m2 ≠ []
    intro he
    have := (WFc_isEmpty_iff bq hc m2 (by omega)).2 he
    rw [this] at hne
    exact absurd hne (by simp)

theorem popleft_ok (bq : BPQ) (hwf : WF bq) (hne0 : 0 < bq.max) :
    ∃ bq' r rest, bq.bkt bq.max = r :: rest ∧
      BPQ.popleft bq = .ok (bq', r) ∧ WF bq' ∧
      bq'.max ≤ bq.max ∧ bq'.offset = bq.offset ∧ bq'.high = bq.high ∧
      (bq.heap r).key = bq.max ∧
      bq'.bkt bq.max = rest ∧ (∀ j, j ≠ bq.max → bq'.bkt j = bq.bkt j) := by
  obtain ⟨hc, hmax, habove, hmne⟩ := hwf
  rcases hbm : bq.bkt bq.max with _ | ⟨r, rest⟩
  · exact absurd hbm hmne
  have hlen := hc.1
  have hrI := hc.2.2.1 bq.max hmax
  have hfirst : (bq.heap (bhd bq.max)).next = r :=
    (ringOk_cons bq.heap (bhd bq.max) r rest (by rw [← hbm]; exact hrI)).1
  have hndI : (bhd bq.max :: bq.bkt bq.max).Nodup := WFc_ring_nd bq hc bq.max hmax
  have hrnotlock : ¬ (bq.heap r).next = r := by
    refine ringOk_member_next_ne bq.heap (bhd bq.max) (bq.bkt bq.max) r hrI hndI ?_
    rw [hbm]
    simp
  have hcs1 : WFc { bq with heap := dlDetach bq.heap r
                            bmodel := bq.bmodel.set bq.max rest } := by
    have := WFc_remove bq r bq.max [] rest hc hne0 hmax (by rw [hbm]; rfl)
    simpa using this
  have habove1 : ∀ j < bq.high + 1, bq.max < j →
      (bq.bmodel.set bq.max rest).getD j [] = [] := by
    intro j hj hgt
    rw [getD_set_ne _ _ _ _ (by omega)]
    exact habove j hj hgt
  obtain ⟨m2, hrw, hle, hwf1⟩ :=
    rewind_WF { bq with heap := dlDetach bq.heap r
                        bmodel := bq.bmodel.set bq.max rest } hcs1 hmax habove1
  have hdrop : (bq.bmodel.getD bq.max []).drop 1 = rest := by
    have hbmG : bq.bmodel.getD bq.max [] = r :: rest := hbm
    rw [hbmG]
    rfl
  have heq : BPQ.popleft bq = .ok
      ({ bq with heap := dlDetach bq.heap r
                 max := m2
                 bmodel := bq.bmodel.set bq.max rest }, r) := by
    have hrw2 : rewind (dlDetach bq.heap r) bq.max = some m2 := hrw
    simp only [BPQ.popleft, if_pos hmax, hfirst, if_neg hrnotlock, hdrop, hrw2]
  have hkeyr : (bq.heap r).key = bq.max := by
    refine hc.2.2.2.2.2.2 bq.max hmax hne0 r ?_
    rw [hbm]
    simp
  refine ⟨_, r, rest, rfl, heq, hwf1, hle, rfl, rfl, hkeyr, ?_, ?_⟩
  · show (bq.bmodel.set bq.max rest).getD bq.max [] = rest
    exact getD_set_self _ _ _ (by rw [hlen]; exact hmax)
  · intro j hj
    show (bq.bmodel.set bq.max rest).getD j [] = bq.bkt j
    exact getD_set_ne _ _ _ _ hj

theorem detach_ok (bq : BPQ) (a i : Nat) (hwf : WF bq) (hi : 0 < i)
    (hi2 : i < bq.high + 1) (hmem : a ∈ bq.bkt i) :
    ∃ bq', BPQ.detach bq a = .ok bq' ∧ WF bq' ∧ bq'.max ≤ bq.max ∧
      bq'.offset = bq.offset ∧ bq'.high = bq.high ∧
      bq'.bkt i = (bq.bkt i).erase a ∧
      (∀ j, j ≠ i → bq'.bkt j = bq.bkt j) := by
  obtain ⟨hc, hmax, habove, hmne⟩ := hwf
  have hlen := hc.1
  have hrI := hc.2.2.1 i hi2
  have hndI : (bhd i :: bq.bkt i).Nodup := WFc_ring_nd bq hc i hi2
  have hkeya : (bq.heap a).key = i := hc.2.2.2.2.2.2 i hi2 hi a hmem
  have hanotlock : ¬ (bq.heap a).next = a :=
    ringOk_member_next_ne bq.heap (bhd i) (bq.bkt i) a hrI hndI hmem
  obtain ⟨u, v, huv⟩ := List.append_of_mem hmem
  have hnu : a ∉ u := by
    have : (bq.bkt i).Nodup := hc.2.2.2.1 i hi2
    rw [huv, List.nodup_append] at this
    exact fun hmem2 => this.2.2 hmem2 (by simp)
  have herase : (bq.bkt i).erase a = u ++ v := by
    rw [huv, List.erase_append_right (a :: v) hnu, List.erase_cons_head]
  have hcs1 : WFc { bq with heap := dlDetach bq.heap a
                            bmodel := bq.bmodel.set i ((bq.bkt i).erase a) } := by
    rw [herase]
    exact WFc_remove bq a i u v hc hi hi2 huv
  have hile : i ≤ bq.max := by
    by_contra hgt
    rw [habove i hi2 (by omega)] at hmem
    exact absurd hmem (by simp)
  have habove1 : ∀ j < bq.high + 1, bq.max < j →
      (bq.bmodel.set i ((bq.bkt i).erase a)).getD j [] = [] := by
    intro j hj hgt
    rw [getD_set_ne _ _ _ _ (by omega)]
    exact habove j hj hgt
  obtain ⟨m2, hrw, hle, hwf1⟩ :=
    rewind_WF { bq with heap := dlDetach bq.heap a
                        bmodel := bq.bmodel.set i ((bq.bkt i).erase a) } hcs1 hmax habove1
  have heq : BPQ.detach bq a = .ok
      { bq with heap := dlDetach bq.heap a
                max := m2
                bmodel := bq.bmodel.set i ((bq.bkt i).erase a) } := by
    have hrw2 : rewind (dlDetach bq.heap a) bq.max = some m2 := hrw
    simp only [BPQ.detach, if_neg hanotlock, hkeya, if_pos hmax, hrw2]
    rfl
  refine ⟨_, heq, hwf1, hle, rfl, rfl, ?_, ?_⟩
  · show (bq.bmodel.set i ((bq.bkt i).erase a)).getD i [] = (bq.bkt i).erase a
    exact getD_set_self _ _ _ (by rw [hlen]; exact hi2)
  · intro j hj
    show (bq.bmodel.set i ((bq.bkt i).erase a)).getD j [] = bq.bkt j
    exact getD_set_ne _ _ _ _ hj

theorem increase_ok (bq : BPQ) (a i δ : Nat) (hwf : WF bq) (hi : 0 < i)
    (hi2 : i < bq.high + 1) (hmem : a ∈ bq.bkt i) (hk : i + δ ≤ bq.high) :
    ∃ bq', BPQ.increase_key bq a δ = .ok bq' ∧ WF bq' ∧
      bq'.offset = bq.offset ∧ bq'.high = bq.high ∧
      bq'.max = (if bq.max < i + δ then i + δ else bq.max) ∧
      (bq'.heap a).key = i + δ ∧
      bq'.bmodel = (bq.bmodel.set i ((bq.bkt i).erase a)).set (i + δ)
        (a :: (bq.bmodel.set i ((bq.bkt i).erase a)).getD (i + δ) []) := by
  obtain ⟨hc, hmax, habove, hmne⟩ := hwf
  have hlen := hc.1
  have hrI := hc.2.2.1 i hi2
  have hndI : (bhd i :: bq.bkt i).Nodup := WFc_ring_nd bq hc i hi2
  have hkeya : (bq.heap a).key = i := hc.2.2.2.2.2.2 i hi2 hi a hmem
  have hanotlock : ¬ (bq.heap a).next = a :=
    ringOk_member_next_ne bq.heap (bhd i) (bq.bkt i) a hrI hndI hmem
  obtain ⟨u, v, huv⟩ := List.append_of_mem hmem
  have hndk : (bq.bkt i).Nodup := hc.2.2.2.1 i hi2
  have hnu : a ∉ u ∧ a ∉ v := by
    rw [huv, List.nodup_append, List.nodup_cons] at hndk
    exact ⟨fun hmem2 => hndk.2.2 hmem2 (by simp), hndk.2.1.1⟩
  have herase : (bq.bkt i).erase a = u ++ v := by
    rw [huv, List.erase_append_right (a :: v) hnu.1, List.erase_cons_head]
  have hile : i ≤ bq.max := by
    by_contra hgt
    rw [habove i hi2 (by omega)] at hmem
    exact absurd hmem (by simp)
  have hcs1 : WFc { bq with heap := dlDetach bq.heap a
                            bmodel := bq.bmodel.set i ((bq.bkt i).erase a) } := by
    rw [herase]
    exact WFc_remove bq a i u v hc hi hi2 huv
  have hbig := hc.2.2.2.2.2.1
  have hdisj := hc.2.2.2.2.1
  have hfr1 : fresh { bq with heap := dlDetach bq.heap a
                              bmodel := bq.bmodel.set i ((bq.bkt i).erase a) } a := by
    refine ⟨hbig i hi2 a hmem, ?_⟩
    intro j hj
    show a ∉ (bq.bmodel.set i ((bq.bkt i).erase a)).getD j []
    by_cases hji : j = i
    · subst hji
      rw [getD_set_self _ _ _ (by rw [hlen]; exact hj), herase]
      simp only [List.mem_append]
      rintro (e | e)
      · exact hnu.1 e
      · exact hnu.2 e
    · rw [getD_set_ne _ _ _ _ hji]
      exact hdisj i hi2 j hj (fun e => hji e.symm) a hmem
  have hcs2 := WFc_setkey
    { bq with heap := dlDetach bq.heap a
              bmodel := bq.bmodel.set i ((bq.bkt i).erase a) } a (i + δ) hcs1 hfr1
  have hcs3 := WFc_insert_front
    { bq with heap := hup (dlDetach bq.heap a) a (fun nd => { nd with key := i + δ })
              bmodel := bq.bmodel.set i ((bq.bkt i).erase a) } a (i + δ) hcs2 hfr1
    (show (hup (dlDetach bq.heap a) a (fun nd => { nd with key := i + δ }) a).key = i + δ
      by rw [hup_self])
    (show 0 < i + δ by omega) (show i + δ < bq.high + 1 by omega)
  have hne0 : ¬ (i + δ = 0) := by omega
  have hnh : ¬ (bq.high < i + δ) := by omega
  have heq : BPQ.increase_key bq a δ = .ok
      { bq with
        heap := listAppendleft
          (hup (dlDetach bq.heap a) a (fun nd => { nd with key := i + δ }))
          (bhd (i + δ)) a
        max := if bq.max < i + δ then i + δ else bq.max
        bmodel := (bq.bmodel.set i ((bq.bkt i).erase a)).set (i + δ)
          (a :: (bq.bmodel.set i ((bq.bkt i).erase a)).getD (i + δ) []) } := by
    simp only [BPQ.increase_key, if_neg hanotlock, hkeya, if_neg hne0, if_neg hnh]
    rfl
  refine ⟨_, heq, ⟨hcs3, ?_, ?_, ?_⟩, rfl, rfl, rfl, ?_, rfl⟩
  · show (if bq.max < i + δ then i + δ else bq.max) < bq.high + 1
    split <;> omega
  · intro j hj hgt
    have hj2 : j < bq.high + 1 := hj
    have hgt2 : (if bq.max < i + δ then i + δ else bq.max) < j := hgt
    have hjk : j ≠ i + δ := by split at hgt2 <;> omega
    have hjmax : bq.max < j := by split at hgt2 <;> omega
    have hji : j ≠ i := by omega
    show ((bq.bmodel.set i ((bq.bkt i).erase a)).set (i + δ)
      (a :: (bq.bmodel.set i ((bq.bkt i).erase a)).getD (i + δ) [])).getD j [] = []
    rw [getD_set_ne _ _ _ _ hjk, getD_set_ne _ _ _ _ hji]
    exact habove j hj2 hjmax
  · have hself : ((bq.bmodel.set i ((bq.bkt i).erase a)).set (i + δ)
        (a :: (bq.bmodel.set i ((bq.bkt i).erase a)).getD (i + δ) [])).getD (i + δ) []
        = a :: (bq.bmodel.set i ((bq.bkt i).erase a)).getD (i + δ) [] :=
      getD_set_self _ _ _ (by rw [List.length_set, hlen]; omega)
    by_cases hlt : bq.max < i + δ
    · show ((bq.bmodel.set i ((bq.bkt i).erase a)).set (i + δ) _).getD
        (if bq.max < i + δ then i + δ else bq.max) [] ≠ []
      rw [if_pos hlt, hself]
      simp
    · show ((bq.bmodel.set i ((bq.bkt i).erase a)).set (i + δ) _).getD
        (if bq.max < i + δ then i + δ else bq.max) [] ≠ []
      rw [if_neg hlt]
      by_cases hmeq : bq.max = i + δ
      · rw [hmeq, hself]
        simp
      · have hmi : bq.max ≠ i := by omega
        rw [getD_set_ne _ _ _ _ hmeq, getD_set_ne _ _ _ _ hmi]
        exact hmne
  · show (listAppendleft
      (hup (dlDetach bq.heap a) a (fun nd => { nd with key := i + δ }))
      (bhd (i + δ)) a a).key = i + δ
    simp only [listAppendleft]
    rw [dlAttach_key, hup_self]

theorem decrease_ok (bq : BPQ) (a i δ : Nat) (hwf : WF bq) (hi : 0 < i)
    (hi2 : i < bq.high + 1) (hmem : a ∈ bq.bkt i) (hpos : 0 < i - δ)
    (hk : i - δ ≤ bq.high) :
    ∃ bq', BPQ.decrease_key bq a δ = .ok bq' ∧ WF bq' ∧
      bq'.offset = bq.offset ∧ bq'.high = bq.high ∧
      bq'.max ≤ bq.max ∧
      (bq'.heap a).key = i - δ ∧
      bq'.bmodel = (bq.bmodel.set i ((bq.bkt i).erase a)).set (i - δ)
        ((bq.bmodel.set i ((bq.bkt i).erase a)).getD (i - δ) [] ++ [a]) := by
  obtain ⟨hc, hmax, habove, hmne⟩ := hwf
  have hlen := hc.1
  have hrI := hc.2.2.1 i hi2
  have hndI : (bhd i :: bq.bkt i).Nodup := WFc_ring_nd bq hc i hi2
  have hkeya : (bq.heap a).key = i := hc.2.2.2.2.2.2 i hi2 hi a hmem
  have hanotlock : ¬ (bq.heap a).next = a :=
    ringOk_member_next_ne bq.heap (bhd i) (bq.bkt i) a hrI hndI hmem
  obtain ⟨u, v, huv⟩ := List.append_of_mem hmem
  have hndk : (bq.bkt i).Nodup := hc.2.2.2.1 i hi2
  have hnu : a ∉ u ∧ a ∉ v := by
    rw [huv, List.nodup_append, List.nodup_cons] at hndk
    exact ⟨fun hmem2 => hndk.2.2 hmem2 (by simp), hndk.2.1.1⟩
  have herase : (bq.bkt i).erase a = u ++ v := by
    rw [huv, List.erase_append_right (a :: v) hnu.1, List.erase_cons_head]
  have hile : i ≤ bq.max := by
    by_contra hgt
    rw [habove i hi2 (by omega)] at hmem
    exact absurd hmem (by simp)
  have hcs1 : WFc { bq with heap := dlDetach bq.heap a
                            bmodel := bq.bmodel.set i ((bq.bkt i).erase a) } := by
    rw [herase]
    exact WFc_remove bq a i u v hc hi hi2 huv
  have hbig := hc.2.2.2.2.2.1
  have hdisj := hc.2.2.2.2.1
  have hfr1 : fresh { bq with heap := dlDetach bq.heap a
                              bmodel := bq.bmodel.set i ((bq.bkt i).erase a) } a := by
    refine ⟨hbig i hi2 a hmem, ?_⟩
    intro j hj
    show a ∉ (bq.bmodel.set i ((bq.bkt i).erase a)).getD j []
    by_cases hji : j = i
    · subst hji
      rw [getD_set_self _ _ _ (by rw [hlen]; exact hj), herase]
      simp only [List.mem_append]
      rintro (e | e)
      · exact hnu.1 e
      · exact hnu.2 e
    · rw [getD_set_ne _ _ _ _ hji]
      exact hdisj i hi2 j hj (fun e => hji e.symm) a hmem
  have hcs2 := WFc_setkey
    { bq with heap := dlDetach bq.heap a
              bmodel := bq.bmodel.set i ((bq.bkt i).erase a) } a (i - δ) hcs1 hfr1
  have hcs3 := WFc_insert_back
    { bq with heap := hup (dlDetach bq.heap a) a (fun nd => { nd with key := i - δ })
              bmodel := bq.bmodel.set i ((bq.bkt i).erase a) } a (i - δ) hcs2 hfr1
    (show (hup (dlDetach bq.heap a) a (fun nd => { nd with key := i - δ }) a).key = i - δ
      by rw [hup_self])
    (show 0 < i - δ by omega) (show i - δ < bq.high + 1 by omega)
  have hnunder : ¬ (i < δ) := by omega
  have hne0 : ¬ (i - δ = 0) := by omega
  have hnh : ¬ (bq.high < i - δ) := by omega
  have hnraise : ¬ (bq.max < i - δ) := by omega
  -- the state after reinsertion, before the rewind
  have habove3 : ∀ j < bq.high + 1, bq.max < j →
      (({ bq with
          heap := listAppend
            (hup (dlDetach bq.heap a) a (fun nd => { nd with key := i - δ }))
            (bhd (i - δ)) a
          bmodel := (bq.bmodel.set i ((bq.bkt i).erase a)).set (i - δ)
            ((bq.bmodel.set i ((bq.bkt i).erase a)).getD (i - δ) [] ++ [a]) } : BPQ)).bkt
        j = [] := by
    intro j hj hgt
    have hjk : j ≠ i - δ := by omega
    have hji : j ≠ i := by omega
    show ((bq.bmodel.set i ((bq.bkt i).erase a)).set (i - δ) _).getD j [] = []
    rw [getD_set_ne _ _ _ _ hjk, getD_set_ne _ _ _ _ hji]
    exact habove j hj hgt
  obtain ⟨m2, hrw, hle, hwf1⟩ := rewind_WF
    { bq with
      heap := listAppend
        (hup (dlDetach bq.heap a) a (fun nd => { nd with key := i - δ }))
        (bhd (i - δ)) a
      bmodel := (bq.bmodel.set i ((bq.bkt i).erase a)).set (i - δ)
        ((bq.bmodel.set i ((bq.bkt i).erase a)).getD (i - δ) [] ++ [a]) }
    hcs3 hmax habove3
  have heq : BPQ.decrease_key bq a δ = .ok
      { bq with
        heap := listAppend
          (hup (dlDetach bq.heap a) a (fun nd => { nd with key := i - δ }))
          (bhd (i - δ)) a
        max := m2
        bmodel := (bq.bmodel.set i ((bq.bkt i).erase a)).set (i - δ)
          ((bq.bmodel.set i ((bq.bkt i).erase a)).getD (i - δ) [] ++ [a]) } := by
    have hrw2 : rewind (listAppend
        (hup (dlDetach bq.heap a) a (fun nd => { nd with key := i - δ }))
        (bhd (i - δ)) a) bq.max = some m2 := hrw
    simp only [BPQ.decrease_key, if_neg hanotlock, hkeya, if_neg hnunder,
      if_neg hne0, if_neg hnh, if_neg hnraise, if_pos hmax, hrw2]
    rfl
  refine ⟨_, heq, hwf1, rfl, rfl, hle, ?_, rfl⟩
  show (listAppend
      (hup (dlDetach bq.heap a) a (fun nd => { nd with key := i - δ }))
      (bhd (i - δ)) a a).key = i - δ
  simp only [listAppend]
  rw [dlAttach_key, hup_self]

/-! ## The clear loop -/

theorem clearLoop_at (h : Heap) : ∀ (m x : Nat),
    clearLoop h m x = if 2 ≤ x ∧ x ≤ m + 1 then ⟨x, x, (h x).key⟩ else h x
  | 0, x => by
    rw [clearLoop, if_neg (by omega)]
  | m + 1, x => by
    rw [clearLoop, clearLoop_at (dlClear h (bhd (m + 1))) m x]
    by_cases hc : 2 ≤ x ∧ x ≤ m + 1
    · rw [if_pos hc, if_pos (show 2 ≤ x ∧ x ≤ m + 1 + 1 by omega)]
      have hxne : x ≠ bhd (m + 1) := by simp only [bhd]; omega
      rw [dlClear, hup_ne _ _ _ hxne]
    · rw [if_neg hc]
      by_cases he : x = m + 2
      · subst he
        rw [if_pos (by omega), dlClear]
        have : bhd (m + 1) = m + 2 := rfl
        rw [this, hup_self]
      · rw [if_neg (by omega), dlClear,
          hup_ne _ _ _ (show x ≠ bhd (m + 1) by simp only [bhd]; omega)]

theorem clearLoopG_len : ∀ (bm : List (List Nat)) (m : Nat),
    (clearLoopG bm m).length = bm.length
  | bm, 0 => rfl
  | bm, m + 1 => by rw [clearLoopG, clearLoopG_len, List.length_set]

theorem clearLoopG_at : ∀ (bm : List (List Nat)) (m j : Nat),
    (clearLoopG bm m).getD j [] = if 1 ≤ j ∧ j ≤ m then [] else bm.getD j []
  | bm, 0, j => by rw [clearLoopG, if_neg (by omega)]
  | bm, m + 1, j => by
    rw [clearLoopG, clearLoopG_at (bm.set (m + 1) ([] : List Nat)) m j]
    by_cases hc : 1 ≤ j ∧ j ≤ m
    · rw [if_pos hc, if_pos (by omega)]
    · rw [if_neg hc]
      by_cases he : j = m + 1
      · rw [if_pos (by omega), he]
        by_cases hlen : m + 1 < bm.length
        · exact getD_set_self bm (m + 1) _ hlen
        · rw [List.getD_eq_getElem?_getD,
            List.getElem?_eq_none (by rw [List.length_set]; omega)]
          rfl
      · rw [if_neg (by omega)]
        exact getD_set_ne bm (m + 1) j _ he

theorem clear_ok (bq : BPQ) (hwf : WF bq) :
    ∃ bq', BPQ.clear bq = .ok bq' ∧ WF bq' ∧ bq'.max = 0 ∧
      bq'.offset = bq.offset ∧ bq'.high = bq.high ∧
      bq'.bkt 0 = [bq.sent] ∧
      (∀ i, 0 < i → i < bq.high + 1 → bq'.bkt i = []) ∧
      (∀ x, bq.high + 1 < x → bq'.heap x = bq.heap x) := by
  obtain ⟨hc, hmax, habove, hmne⟩ := hwf
  obtain ⟨hlen, hb0, hrings, hnd, hdisj, hbig, hkeys⟩ := hc
  have heq : BPQ.clear bq = .ok
      { bq with heap := clearLoop bq.heap bq.max
                max := 0
                bmodel := clearLoopG bq.bmodel bq.max } := by
    rw [BPQ.clear, if_pos hmax]
  have hbkt : ∀ j, (clearLoopG bq.bmodel bq.max).getD j [] =
      if 1 ≤ j ∧ j ≤ bq.max then [] else bq.bmodel.getD j [] :=
    fun j => clearLoopG_at bq.bmodel bq.max j
  have hframe : ∀ x, bq.high + 1 < x → clearLoop bq.heap bq.max x = bq.heap x := by
    intro x hx
    rw [clearLoop_at, if_neg (by omega)]
  have hbkt0 : (clearLoopG bq.bmodel bq.max).getD 0 [] = [bq.sent] := by
    rw [hbkt 0, if_neg (by omega)]
    exact hb0
  have hbktpos : ∀ i, 0 < i → i < bq.high + 1 →
      (clearLoopG bq.bmodel bq.max).getD i [] = [] := by
    intro i hi hi2
    rw [hbkt i]
    by_cases hle : i ≤ bq.max
    · rw [if_pos (by omega)]
    · rw [if_neg (by omega)]
      exact habove i hi2 (by omega)
  refine ⟨_, heq, ⟨⟨?_, hbkt0, ?_, ?_, ?_, ?_, ?_⟩,
    show (0 : Nat) < bq.high + 1 by omega, ?_, ?_⟩,
    rfl, rfl, rfl, hbkt0, hbktpos, hframe⟩
  · show (clearLoopG bq.bmodel bq.max).length = bq.high + 1
    rw [clearLoopG_len]
    exact hlen
  · -- rings
    intro i hi
    have hi2 : i < bq.high + 1 := hi
    show ringOk (clearLoop bq.heap bq.max) (bhd i)
      ((clearLoopG bq.bmodel bq.max).getD i [])
    by_cases hcase : 1 ≤ i ∧ i ≤ bq.max
    · rw [hbkt i, if_pos hcase]
      have hhd : clearLoop bq.heap bq.max (bhd i) = ⟨bhd i, bhd i, (bq.heap (bhd i)).key⟩ := by
        rw [clearLoop_at, if_pos (show 2 ≤ bhd i ∧ bhd i ≤ bq.max + 1 by
          simp only [bhd]; omega)]
      rw [ringOk_empty_iff, hhd]
      exact ⟨rfl, rfl⟩
    · rw [hbkt i, if_neg hcase]
      refine (pathOk_congr_mem bq.heap _ _ ?_).1 (hrings i hi2)
      intro x hx
      rw [clearLoop_at]
      refine if_neg ?_
      rcases List.mem_cons.1 hx with e | e
      · subst e
        simp only [bhd]
        omega
      · rcases List.mem_append.1 e with e2 | e2
        · have := hbig i hi2 x e2
          omega
        · rw [List.mem_singleton] at e2
          subst e2
          simp only [bhd]
          omega
  · -- nodup
    intro i hi
    have hi2 : i < bq.high + 1 := hi
    show ((clearLoopG bq.bmodel bq.max).getD i []).Nodup
    rw [hbkt i]
    split
    · simp
    · exact hnd i hi2
  · -- disjoint
    intro i hi j hj hij x hx
    have hi2 : i < bq.high + 1 := hi
    have hj2 : j < bq.high + 1 := hj
    have hx2 : x ∈ (clearLoopG bq.bmodel bq.max).getD i [] := hx
    show x ∉ (clearLoopG bq.bmodel bq.max).getD j []
    rw [hbkt i] at hx2
    rw [hbkt j]
    split at hx2
    · exact absurd hx2 (by simp)
    · split
      · simp
      · exact hdisj i hi2 j hj2 hij x hx2
  · -- big
    intro i hi x hx
    have hi2 : i < bq.high + 1 := hi
    have hx2 : x ∈ (clearLoopG bq.bmodel bq.max).getD i [] := hx
    rw [hbkt i] at hx2
    split at hx2
    · exact absurd hx2 (by simp)
    · exact hbig i hi2 x hx2
  · -- keys
    intro i hi hpos x hx
    have hi2 : i < bq.high + 1 := hi
    have hx2 : x ∈ (clearLoopG bq.bmodel bq.max).getD i [] := hx
    rw [hbkt i] at hx2
    split at hx2
    · exact absurd hx2 (by simp)
    · show (clearLoop bq.heap bq.max x).key = i
      rw [clearLoop_at, if_neg (by have := hbig i hi2 x hx2; omega)]
      exact hkeys i hi2 hpos x hx2
  · -- above max = 0
    intro j hj hgt
    exact hbktpos j hgt hj
  · -- bucket at max = 0 nonempty
    show (clearLoopG bq.bmodel bq.max).getD 0 [] ≠ []
    rw [hbkt0]
    simp

/-! ## Construction -/

theorem new_ok (a b : Int) (hab : a ≤ b) :
    ∃ bq, BPQ.new a b = some bq ∧ WF bq ∧ bq.offset = a - 1 ∧
      bq.high = (b - a + 1).toNat ∧ bq.max = 0 ∧
      bq.bmodel.length = (b - a + 2).toNat ∧
      bq.bkt 0 = [bq.sent] ∧
      (∀ i, 0 < i → i < bq.high + 1 → bq.bkt i = []) ∧
      bq.is_empty = true ∧ bq.get_max = a - 1 := by
  have hH1 : 1 ≤ (b - a + 1).toNat := by omega
  set H := (b - a + 1).toNat with hH
  have heq : BPQ.new a b = some
      { max := 0
        offset := a - 1
        high := H
        heap := listAppend (initHeap H) (bhd 0) (H + 2)
        bmodel := (List.replicate (H + 1) ([] : List Nat)).set 0 [H + 2] } := by
    rw [BPQ.new, if_pos hab]
  have hrep : ∀ j, (List.replicate (H + 1) ([] : List Nat)).getD j [] = [] := by
    intro j
    rw [List.getD_eq_getElem?_getD, List.getElem?_replicate]
    split
    · rfl
    · rfl
  have hbkt0 : ((List.replicate (H + 1) ([] : List Nat)).set 0 [H + 2]).getD 0 []
      = [H + 2] :=
    getD_set_self _ 0 _ (by rw [List.length_replicate]; omega)
  have hbktpos : ∀ j, j ≠ 0 →
      ((List.replicate (H + 1) ([] : List Nat)).set 0 [H + 2]).getD j [] = [] := by
    intro j hj
    rw [getD_set_ne _ _ _ _ hj]
    exact hrep j
  have hinit1 : initHeap H 1 = ⟨1, 1, 5354⟩ := by
    rw [initHeap, if_pos ⟨le_refl 1, by omega⟩]
  have hinits : initHeap H (H + 2) = ⟨0, 0, 1314⟩ := by
    rw [initHeap, if_neg (by omega), if_pos rfl]
  have hinitmid : ∀ x, 1 ≤ x → x ≤ H + 1 → initHeap H x = ⟨x, x, 5354⟩ := by
    intro x h1 h2
    rw [initHeap, if_pos ⟨h1, h2⟩]
  have hprev1 : (initHeap H (bhd 0)).prev = bhd 0 := by
    show (initHeap H 1).prev = 1
    rw [hinit1]
  have hs12 : (1 : Nat) ≠ H + 2 := by omega
  have hn1 : (initHeap H 1).next = 1 := by rw [hinit1]
  have hA1 : listAppend (initHeap H) (bhd 0) (H + 2) 1 = ⟨H + 2, H + 2, 5354⟩ := by
    show dlAttach (initHeap H) ((initHeap H (bhd 0)).prev) (H + 2) 1 = _
    rw [hprev1]
    show dlAttach (initHeap H) 1 (H + 2) 1 = _
    rw [dlAttach_at_s_self (initHeap H) 1 (H + 2) hs12 hn1, hinit1]
  have hAs : listAppend (initHeap H) (bhd 0) (H + 2) (H + 2) = ⟨1, 1, 1314⟩ := by
    show dlAttach (initHeap H) ((initHeap H (bhd 0)).prev) (H + 2) (H + 2) = _
    rw [hprev1]
    show dlAttach (initHeap H) 1 (H + 2) (H + 2) = _
    rw [dlAttach_at_a (initHeap H) 1 (H + 2) hs12 (by rw [hn1]; omega), hn1, hinits]
  have hAother : ∀ x, x ≠ 1 → x ≠ H + 2 →
      listAppend (initHeap H) (bhd 0) (H + 2) x = initHeap H x := by
    intro x hx1 hx2
    show dlAttach (initHeap H) ((initHeap H (bhd 0)).prev) (H + 2) x = _
    rw [hprev1]
    exact dlAttach_at_other (initHeap H) 1 (H + 2) x hx2 hx1 (by rw [hn1]; exact hx1)
  refine ⟨_, heq, ⟨⟨?_, ?_, ?_, ?_, ?_, ?_, ?_⟩,
    show (0 : Nat) < H + 1 by omega, ?_, ?_⟩, rfl, rfl, rfl, ?_, ?_, ?_, ?_, ?_⟩
  · show ((List.replicate (H + 1) ([] : List Nat)).set 0 [H + 2]).length = H + 1
    rw [List.length_set, List.length_replicate]
  · exact hbkt0
  · -- rings
    intro i hi
    have hi2 : i < H + 1 := hi
    show ringOk (listAppend (initHeap H) (bhd 0) (H + 2)) (bhd i)
      (((List.replicate (H + 1) ([] : List Nat)).set 0 [H + 2]).getD i [])
    rcases Nat.eq_zero_or_pos i with hz | hpos
    · subst hz
      rw [hbkt0]
      show pathOk _ ((1 : Nat) :: [H + 2] ++ [1])
      simp only [List.cons_append, List.nil_append, pathOk_cons_cons, pathOk_single,
        and_true]
      rw [hA1, hAs]
      exact ⟨rfl, rfl, rfl, rfl⟩
    · rw [hbktpos i (by omega)]
      rw [ringOk_empty_iff]
      have : bhd i = i + 1 := rfl
      rw [this, hAother (i + 1) (by omega) (by omega), hinitmid (i + 1) (by omega) (by omega)]
      exact ⟨rfl, rfl⟩
  · intro i hi
    rcases Nat.eq_zero_or_pos i with hz | hpos
    · subst hz
      show (((List.replicate (H + 1) ([] : List Nat)).set 0 [H + 2]).getD 0 []).Nodup
      rw [hbkt0]
      simp
    · show (((List.replicate (H + 1) ([] : List Nat)).set 0 [H + 2]).getD i []).Nodup
      rw [hbktpos i (by omega)]
      simp
  · intro i hi j hj hij x hx
    have hx2 : x ∈ ((List.replicate (H + 1) ([] : List Nat)).set 0 [H + 2]).getD i [] := hx
    show x ∉ ((List.replicate (H + 1) ([] : List Nat)).set 0 [H + 2]).getD j []
    rcases Nat.eq_zero_or_pos j with hz | hpos
    · subst hz
      rw [hbkt0]
      rcases Nat.eq_zero_or_pos i with hz2 | hpos2
      · exact absurd hz2 hij
      · rw [hbktpos i (by omega)] at hx2
        exact absurd hx2 (by simp)
    · rw [hbktpos j (by omega)]
      simp
  · intro i hi x hx
    have hx2 : x ∈ ((List.replicate (H + 1) ([] : List Nat)).set 0 [H + 2]).getD i [] := hx
    show H + 1 < x
    rcases Nat.eq_zero_or_pos i with hz | hpos
    · subst hz
      rw [hbkt0] at hx2
      rw [List.mem_singleton] at hx2
      omega
    · rw [hbktpos i (by omega)] at hx2
      exact absurd hx2 (by simp)
  · intro i hi hpos x hx
    have hx2 : x ∈ ((List.replicate (H + 1) ([] : List Nat)).set 0 [H + 2]).getD i [] := hx
    rw [hbktpos i (by omega)] at hx2
    exact absurd hx2 (by simp)
  · intro i hi hgt
    show ((List.replicate (H + 1) ([] : List Nat)).set 0 [H + 2]).getD i [] = []
    exact hbktpos i (by omega)
  · show ((List.replicate (H + 1) ([] : List Nat)).set 0 [H + 2]).getD 0 [] ≠ []
    rw [hbkt0]
    simp
  · show ((List.replicate (H + 1) ([] : List Nat)).set 0 [H + 2]).length = (b - a + 2).toNat
    rw [List.length_set, List.length_replicate]
    omega
  · exact hbkt0
  · intro i hi hi2
    exact hbktpos i (by omega)
  · rfl
  · show (a - 1) + ((0 : Nat) : Int) = a - 1
    simp

theorem WF_linked (bq : BPQ) (hwf : WF bq) :
    ∀ i < bq.high + 1, ∀ x ∈ bhd i :: bq.bkt i,
      (bq.heap ((bq.heap x).next)).prev = x ∧
      (bq.heap ((bq.heap x).prev)).next = x :=
  fun i hi x hx => ringOk_linked bq.heap (bhd i) (bq.bkt i) (hwf.1.2.2.1 i hi) x hx

theorem modify_locked (bq : BPQ) (x : Nat) (δ : Int) (hl : (bq.heap x).next = x) :
    BPQ.modify_key bq x δ = .ok bq := by
  rw [BPQ.modify_key, if_pos hl]

theorem modify_zero (bq : BPQ) (a : Nat) (hl : ¬ (bq.heap a).next = a) :
    BPQ.modify_key bq a 0 = .ok bq := by
  rw [BPQ.modify_key, if_neg hl, if_neg (by omega), if_neg (by omega)]

theorem modify_pos (bq : BPQ) (a : Nat) (δ : Int) (hl : ¬ (bq.heap a).next = a)
    (hδ : 0 < δ) : BPQ.modify_key bq a δ = BPQ.increase_key bq a δ.toNat := by
  rw [BPQ.modify_key, if_neg hl, if_pos hδ]

theorem modify_neg (bq : BPQ) (a : Nat) (δ : Int) (hl : ¬ (bq.heap a).next = a)
    (hδ : δ < 0) : BPQ.modify_key bq a δ = BPQ.decrease_key bq a (-δ).toNat := by
  rw [BPQ.modify_key, if_neg hl, if_neg (by omega), if_pos hδ]

theorem step_WF (bq bq' : BPQ) (hwf : WF bq) (hs : Step bq bq') : WF bq' := by
  cases hs with
  | append a k hfr hk1 hk2 hstep =>
    obtain ⟨bq2, heq2, hwf2, -⟩ :=
      append_ok bq a k ((k - bq.offset).toNat) rfl hwf hfr (by omega) (by omega)
    rw [heq2] at hstep
    simp only [Except.ok.injEq] at hstep
    subst hstep
    exact hwf2
  | appendleft a k hfr hk1 hk2 hstep =>
    obtain ⟨bq2, heq2, hwf2, -⟩ :=
      appendleft_ok bq a k ((k - bq.offset).toNat) rfl hwf hfr (by omega) (by omega)
    rw [heq2] at hstep
    simp only [Except.ok.injEq] at hstep
    subst hstep
    exact hwf2
  | popleft r hne hstep =>
    obtain ⟨bq2, r2, rest, -, heq2, hwf2, -⟩ := popleft_ok bq hwf hne
    rw [heq2] at hstep
    simp only [Except.ok.injEq, Prod.mk.injEq] at hstep
    rw [← hstep.1]
    exact hwf2
  | detach a i hi hi2 hmem hstep =>
    obtain ⟨bq2, heq2, hwf2, -⟩ := detach_ok bq a i hwf hi hi2 hmem
    rw [heq2] at hstep
    simp only [Except.ok.injEq] at hstep
    subst hstep
    exact hwf2
  | increase a i δ hi hi2 hmem hk hstep =>
    obtain ⟨bq2, heq2, hwf2, -⟩ := increase_ok bq a i δ hwf hi hi2 hmem hk
    rw [heq2] at hstep
    simp only [Except.ok.injEq] at hstep
    subst hstep
    exact hwf2
  | decrease a i δ hi hi2 hmem hpos hk hstep =>
    obtain ⟨bq2, heq2, hwf2, -⟩ := decrease_ok bq a i δ hwf hi hi2 hmem hpos hk
    rw [heq2] at hstep
    simp only [Except.ok.injEq] at hstep
    subst hstep
    exact hwf2
  | modifyLocked x δ hl hstep =>
    rw [modify_locked bq x δ hl] at hstep
    simp only [Except.ok.injEq] at hstep
    subst hstep
    exact hwf
  | modifyKey a i δ hi hi2 hmem hup2 hdown hstep =>
    have hanotlock : ¬ (bq.heap a).next = a :=
      ringOk_member_next_ne bq.heap (bhd i) (bq.bkt i) a (hwf.1.2.2.1 i hi2)
        (WFc_ring_nd bq hwf.1 i hi2) hmem
    rcases lt_trichotomy δ 0 with hneg | hzero | hpos
    · rw [modify_neg bq a δ hanotlock hneg] at hstep
      obtain ⟨h1, h2⟩ := hdown hneg
      obtain ⟨bq2, heq2, hwf2, -⟩ := decrease_ok bq a i ((-δ).toNat) hwf hi hi2 hmem h1 h2
      rw [heq2] at hstep
      simp only [Except.ok.injEq] at hstep
      subst hstep
      exact hwf2
    · subst hzero
      rw [modify_zero bq a hanotlock] at hstep
      simp only [Except.ok.injEq] at hstep
      subst hstep
      exact hwf
    · rw [modify_pos bq a δ hanotlock hpos] at hstep
      obtain ⟨bq2, heq2, hwf2, -⟩ :=
        increase_ok bq a i (δ.toNat) hwf hi hi2 hmem (hup2 hpos)
      rw [heq2] at hstep
      simp only [Except.ok.injEq] at hstep
      subst hstep
      exact hwf2

/-- C1.  After every List/BPQueue operation (attach, detach, append,
appendleft, popleft, pop, increase_key, decrease_key, modify_key) applied
under its preconditions, every node resident in some list satisfies
`n.next.prev == n` and `n.prev.next == n`.  The first conjunct covers the
BPQueue operations (a `Step` is one such operation on a well-formed queue
state); the remaining conjuncts cover the raw list operations
`Dllink::attach` (head insertion), `Dllist::append` (tail insertion),
`Dllink::detach`, `Dllist::popleft`, and `Dllist::pop` on one well-formed
ring. -/
theorem claim_C1 :
    (∀ bq bq', WF bq → Step bq bq' →
      WF bq' ∧ ∀ i < bq'.high + 1, ∀ x ∈ bhd i :: bq'.bkt i,
        (bq'.heap ((bq'.heap x).next)).prev = x ∧
        (bq'.heap ((bq'.heap x).prev)).next = x) ∧
    (∀ (h : Heap) (hd x : Nat) (xs : List Nat),
      ringOk h hd xs → (hd :: xs).Nodup → x ∉ hd :: xs →
      ∀ y ∈ hd :: x :: xs,
        (dlAttach h hd x ((dlAttach h hd x y).next)).prev = y ∧
        (dlAttach h hd x ((dlAttach h hd x y).prev)).next = y) ∧
    (∀ (h : Heap) (hd x : Nat) (xs : List Nat),
      ringOk h hd xs → (hd :: xs).Nodup → x ∉ hd :: xs →
      ∀ y ∈ hd :: (xs ++ [x]),
        (listAppend h hd x ((listAppend h hd x y).next)).prev = y ∧
        (listAppend h hd x ((listAppend h hd x y).prev)).next = y) ∧
    (∀ (h : Heap) (hd x : Nat) (u v : List Nat),
      ringOk h hd (u ++ x :: v) → (hd :: (u ++ x :: v)).Nodup →
      ∀ y ∈ hd :: (u ++ v),
        (dlDetach h x ((dlDetach h x y).next)).prev = y ∧
        (dlDetach h x ((dlDetach h x y).prev)).next = y) ∧
    (∀ (h : Heap) (hd x : Nat) (xs : List Nat),
      ringOk h hd (x :: xs) → (hd :: x :: xs).Nodup →
      (listPopleft h hd).2 = x ∧
      ∀ y ∈ hd :: xs,
        ((listPopleft h hd).1 (((listPopleft h hd).1 y).next)).prev = y ∧
        ((listPopleft h hd).1 (((listPopleft h hd).1 y).prev)).next = y) ∧
    (∀ (h : Heap) (hd x : Nat) (u : List Nat),
      ringOk h hd (u ++ [x]) → (hd :: (u ++ [x])).Nodup →
      (listPop h hd).2 = x ∧
      ∀ y ∈ hd :: u,
        ((listPop h hd).1 (((listPop h hd).1 y).next)).prev = y ∧
        ((listPop h hd).1 (((listPop h hd).1 y).prev)).next = y) := by
  refine ⟨?_, ?_, ?_, ?_, ?_, ?_⟩
  · intro bq bq' hwf hs
    have hwf' := step_WF bq bq' hwf hs
    exact ⟨hwf', WF_linked bq' hwf'⟩
  · intro h hd x xs hr nd hx
    exact ringOk_linked (dlAttach h hd x) hd (x :: xs)
      (ringOk_attach_front h hd x xs hr nd hx)
  · intro h hd x xs hr nd hx
    exact ringOk_linked (listAppend h hd x) hd (xs ++ [x])
      (ringOk_attach_back h hd x xs hr nd hx)
  · intro h hd x u v hr nd
    exact ringOk_linked (dlDetach h x) hd (u ++ v) (ringOk_detach h hd x u v hr nd)
  · intro h hd x xs hr nd
    have hfst : (h hd).next = x := (ringOk_cons h hd x xs hr).1
    have h1 : (listPopleft h hd).1 = dlDetach h x := by
      rw [listPopleft, hfst]
    have h2 : (listPopleft h hd).2 = x := by
      rw [listPopleft, hfst]
    refine ⟨h2, ?_⟩
    rw [h1]
    have := ringOk_detach h hd x [] xs hr nd
    exact ringOk_linked (dlDetach h x) hd xs this
  · intro h hd x u hr nd
    have hfst : (h hd).prev = x := (ringOk_concat h hd x u hr).2.1
    have h1 : (listPop h hd).1 = dlDetach h x := by
      rw [listPop, hfst]
    have h2 : (listPop h hd).2 = x := by
      rw [listPop, hfst]
    refine ⟨h2, ?_⟩
    rw [h1]
    have := ringOk_detach h hd x u [] hr nd
    rw [List.append_nil] at this
    exact ringOk_linked (dlDetach h x) hd u this


/-! ## The claims -/

/-- C3.  On the queue over [-3,3] (offset -4, high 7): append(A,0) puts A at
internal index 4 with max = 4 and get_max() = 0; increase_key(A,1) gives
index 5, max = 5, get_max() = 1; decrease_key(A,1) gives index 4, max
rewinds to 4, get_max() = 0; detach(A) rewinds max to 0 and is_empty()
returns true.  Every operation succeeds (`c3chain` is `some`) and the
observations match. -/
theorem claim_C3 :
    c3obs = some ([(4, 4, 0), (5, 5, 1), (4, 4, 0)], 0, true) := by decide

/-- C9 counterexample: `Dllink::new` gives *null* next/prev pointers, not
the self loop: on a fresh node at address 5 the claimed
`n.next == n == n.prev` and `is_locked()` are all false.  (The tests reach
the isolated state by calling `clear()` after `new`.) -/
theorem claim_C9_counterexample :
    dlIsLocked (dlNew h9 5 3) 5 = false ∧
    (dlNew h9 5 3 5).next ≠ 5 ∧ (dlNew h9 5 3 5).prev ≠ 5 := by decide

/-- C9 amended: `Dllink::new(data)` yields a node with *null* (`0`)
`next`/`prev` pointers on which `is_locked()` is false (for any node not at
the null address); it is `clear()` that produces the isolated self-loop
state `n.next == n == n.prev`, on which `is_locked()` is true; `lock()`
shares the self-referential `next` encoding tested by `is_locked` but
leaves `prev` unchanged. -/
theorem claim_C9 (h : Heap) (a k : Nat) (ha : a ≠ 0) :
    (dlIsLocked (dlNew h a k) a = false ∧
     (dlNew h a k a).next = 0 ∧ (dlNew h a k a).prev = 0) ∧
    ((dlClear h a a).next = a ∧ (dlClear h a a).prev = a ∧
     dlIsLocked (dlClear h a) a = true) ∧
    ((dlLock h a a).next = a ∧ (dlLock h a a).prev = (h a).prev ∧
     dlIsLocked (dlLock h a) a = true) := by
  have h1 : dlNew h a k a = ⟨0, 0, k⟩ := hup_self h a _
  have h2 : dlClear h a a = ⟨a, a, (h a).key⟩ := hup_self h a _
  have h3 : dlLock h a a = { h a with next := a } := hup_self h a _
  refine ⟨⟨?_, ?_, ?_⟩, ⟨?_, ?_, ?_⟩, ⟨?_, ?_, ?_⟩⟩
  · show ((dlNew h a k a).next == a) = false
    rw [h1]
    exact beq_eq_false_iff_ne.2 (fun e => ha e.symm)
  · rw [h1]
  · rw [h1]
  · rw [h2]
  · rw [h2]
  · show ((dlClear h a a).next == a) = true
    rw [h2]
    exact beq_self_eq_true a
  · rw [h3]
  · rw [h3]
  · show ((dlLock h a a).next == a) = true
    rw [h3]
    exact beq_self_eq_true a

theorem claim_C9_witness :
    (dlIsLocked (dlNew h9 5 3) 5 = false ∧
     (dlNew h9 5 3 5).next = 0 ∧ (dlNew h9 5 3 5).prev = 0) ∧
    ((dlClear h9 5 5).next = 5 ∧ (dlClear h9 5 5).prev = 5 ∧
     dlIsLocked (dlClear h9 5) 5 = true) ∧
    ((dlLock h9 5 5).next = 5 ∧ (dlLock h9 5 5).prev = (h9 5).prev ∧
     dlIsLocked (dlLock h9 5) 5 = true) :=
  claim_C9 h9 5 3 (by decide)

/-- C6.  `modify_key` is a no-op on a locked node (the whole queue state,
hence in particular `get_max()`, and the node are returned untouched) and a
no-op for delta = 0 on an unlocked node; otherwise it dispatches to
`increase_key` for positive delta and to `decrease_key` with `-delta` for
negative delta. -/
theorem claim_C6 :
    (∀ (bq : BPQ) (x : Nat) (δ : Int), dlIsLocked bq.heap x = true →
      BPQ.modify_key bq x δ = .ok bq) ∧
    (∀ (bq : BPQ) (a : Nat), dlIsLocked bq.heap a = false →
      BPQ.modify_key bq a 0 = .ok bq) ∧
    (∀ (bq : BPQ) (a : Nat) (δ : Int), dlIsLocked bq.heap a = false → 0 < δ →
      BPQ.modify_key bq a δ = BPQ.increase_key bq a δ.toNat) ∧
    (∀ (bq : BPQ) (a : Nat) (δ : Int), dlIsLocked bq.heap a = false → δ < 0 →
      BPQ.modify_key bq a δ = BPQ.decrease_key bq a (-δ).toNat) := by
  refine ⟨?_, ?_, ?_, ?_⟩
  · intro bq x δ hl
    have hl2 : (bq.heap x).next = x := by
      have := hl
      rw [dlIsLocked, beq_iff_eq] at this
      exact this
    exact modify_locked bq x δ hl2
  · intro bq a hl
    have hl2 : ¬ (bq.heap a).next = a := by
      have := hl
      rw [dlIsLocked, beq_eq_false_iff_ne] at this
      exact this
    exact modify_zero bq a hl2
  · intro bq a δ hl hδ
    have hl2 : ¬ (bq.heap a).next = a := by
      have := hl
      rw [dlIsLocked, beq_eq_false_iff_ne] at this
      exact this
    exact modify_pos bq a δ hl2 hδ
  · intro bq a δ hl hδ
    have hl2 : ¬ (bq.heap a).next = a := by
      have := hl
      rw [dlIsLocked, beq_eq_false_iff_ne] at this
      exact this
    exact modify_neg bq a δ hl2 hδ

theorem claim_C6_witness :
    BPQ.modify_key sampleL 10 5 = .ok sampleL ∧
    BPQ.modify_key sampleQ2 10 0 = .ok sampleQ2 ∧
    BPQ.modify_key sampleQ2 10 1 = BPQ.increase_key sampleQ2 10 1 ∧
    BPQ.modify_key sampleQ2 10 (-1) = BPQ.decrease_key sampleQ2 10 1 :=
  ⟨claim_C6.1 sampleL 10 5 (by decide),
   claim_C6.2.1 sampleQ2 10 (by decide),
   claim_C6.2.2.1 sampleQ2 10 1 (by decide) (by decide),
   claim_C6.2.2.2 sampleQ2 10 (-1) (by decide) (by decide)⟩


/-- C7 counterexample: `increase_key` on the node at top index 7 of the
[-3,3] queue with delta 1 violates the bound assert and panics -- but only
after the node has been detached (bucket 7 is already empty in the error
state) and its index field has been shifted to 8.  The state at the panic
is NOT the pre-call state: no atomicity. -/
theorem claim_C7_counterexample :
    BPQ.increase_key c7s1 20 1 = .error c7err ∧
    (c7s1.heap 20).key = 7 ∧ (c7err.heap 20).key = 8 ∧
    c7s1.bkt 7 = [20] ∧ c7err.bkt 7 = [] :=
  ⟨rfl, by decide, by decide, by decide, by decide⟩

/-- C7 amended: operations whose assert fires before any mutation do leave
the state untouched on abort: `append`/`appendleft` with an out-of-range
key, and `increase_key`/`decrease_key`/`detach` on a locked node.  But when
`increase_key`/`decrease_key` abort because the shifted index leaves
[1, high], the abort happens after the detach and the index write: the
state at the panic has the node detached from its ghost bucket and its
index field already shifted. -/
theorem claim_C7 :
    (∀ (bq : BPQ) (a : Nat) (k : Int), ¬ bq.offset < k →
      BPQ.append bq a k = .error bq) ∧
    (∀ (bq : BPQ) (a : Nat) (k : Int), ¬ bq.offset < k →
      BPQ.appendleft bq a k = .error bq) ∧
    (∀ (bq : BPQ) (a δ : Nat), (bq.heap a).next = a →
      BPQ.increase_key bq a δ = .error bq) ∧
    (∀ (bq : BPQ) (a δ : Nat), (bq.heap a).next = a →
      BPQ.decrease_key bq a δ = .error bq) ∧
    (∀ (bq : BPQ) (a : Nat), (bq.heap a).next = a →
      BPQ.detach bq a = .error bq) ∧
    (∀ (bq : BPQ) (a δ : Nat), ¬ (bq.heap a).next = a →
      bq.high < (bq.heap a).key + δ →
      BPQ.increase_key bq a δ = .error
        { bq with
          heap := hup (dlDetach bq.heap a) a
            (fun nd => { nd with key := (bq.heap a).key + δ })
          bmodel := bq.bmodel.set ((bq.heap a).key)
            ((bq.bmodel.getD ((bq.heap a).key) []).erase a) }) ∧
    (∀ (bq : BPQ) (a δ : Nat), ¬ (bq.heap a).next = a →
      (bq.heap a).key = δ →
      BPQ.decrease_key bq a δ = .error
        { bq with
          heap := hup (dlDetach bq.heap a) a (fun nd => { nd with key := 0 })
          bmodel := bq.bmodel.set ((bq.heap a).key)
            ((bq.bmodel.getD ((bq.heap a).key) []).erase a) }) := by
  refine ⟨?_, ?_, ?_, ?_, ?_, ?_, ?_⟩
  · intro bq a k hk
    rw [BPQ.append, if_neg hk]
  · intro bq a k hk
    rw [BPQ.appendleft, if_neg hk]
  · intro bq a δ hl
    rw [BPQ.increase_key, if_pos hl]
  · intro bq a δ hl
    rw [BPQ.decrease_key, if_pos hl]
  · intro bq a hl
    rw [BPQ.detach, if_pos hl]
  · intro bq a δ hl hk
    rw [BPQ.increase_key, if_neg hl, if_neg (show ¬ ((bq.heap a).key + δ = 0) by omega),
      if_pos hk]
  · intro bq a δ hl hkd
    rw [BPQ.decrease_key, if_neg hl, if_neg (show ¬ ((bq.heap a).key < δ) by omega),
      if_pos (show (bq.heap a).key - δ = 0 by omega)]
    rw [show (bq.heap a).key - δ = 0 by omega]

theorem claim_C7_witness :
    BPQ.append c7s0 20 (-5) = .error c7s0 ∧
    BPQ.increase_key c7s1 20 1 = .error
      { c7s1 with
        heap := hup (dlDetach c7s1.heap 20) 20
          (fun nd => { nd with key := (c7s1.heap 20).key + 1 })
        bmodel := c7s1.bmodel.set ((c7s1.heap 20).key)
          ((c7s1.bmodel.getD ((c7s1.heap 20).key) []).erase 20) } :=
  ⟨claim_C7.1 c7s0 20 (-5) (by decide),
   claim_C7.2.2.2.2.2.1 c7s1 20 1 (by decide) (by decide)⟩

/-- C8.  `BPQueue::new(low, high)` fails when low > high; for low ≤ high it
returns a well-formed queue with high - low + 2 buckets, all empty except
the sentinel permanently resident in bucket 0, on which `is_empty()` is
true and `get_max()` returns `offset = low - 1`. -/
theorem claim_C8 :
    (∀ a b : Int, b < a → BPQ.new a b = none) ∧
    (∀ a b : Int, a ≤ b → ∃ bq, BPQ.new a b = some bq ∧
      bq.bmodel.length = (b - a + 2).toNat ∧
      bq.bkt 0 = [bq.sent] ∧
      (∀ i, 0 < i → i < bq.high + 1 → bq.bkt i = []) ∧
      WF bq ∧ bq.is_empty = true ∧ bq.get_max = bq.offset ∧
      bq.offset = a - 1) := by
  constructor
  · intro a b hab
    rw [BPQ.new, if_neg (by omega)]
  · intro a b hab
    obtain ⟨bq, heq, hwf, hoff, hhigh, hmax, hlen, hb0, hpos, hemp, hgm⟩ := new_ok a b hab
    exact ⟨bq, heq, hlen, hb0, hpos, hwf, hemp, by rw [hgm, hoff], hoff⟩

theorem claim_C8_witness :
    BPQ.new 3 1 = none ∧
    (∃ bq, BPQ.new 1 1 = some bq ∧
      bq.bmodel.length = ((1 : Int) - 1 + 2).toNat ∧
      bq.bkt 0 = [bq.sent] ∧
      (∀ i, 0 < i → i < bq.high + 1 → bq.bkt i = []) ∧
      WF bq ∧ bq.is_empty = true ∧ bq.get_max = bq.offset ∧
      bq.offset = (1 : Int) - 1) :=
  ⟨claim_C8.1 3 1 (by decide), claim_C8.2 1 1 (by decide)⟩

/-- C10.  After `clear()` on a well-formed queue the queue is empty:
`is_empty()` is true, `get_max()` returns `offset`, every bucket in
[1, high] is an empty list (both in the ghost model and as tested on the
heap), the sentinel remains resident in bucket 0, and the heap cells of the
caller's nodes (all of which live above the head addresses) are untouched:
cleared nodes are NOT reset to the isolated state. -/
theorem claim_C10 (bq : BPQ) (hwf : WF bq) :
    ∃ bq', BPQ.clear bq = .ok bq' ∧ bq'.is_empty = true ∧
      bq'.get_max = bq.offset ∧
      (∀ i, 0 < i → i < bq.high + 1 →
        bq'.bkt i = [] ∧ listIsEmpty bq'.heap (bhd i) = true) ∧
      bq'.bkt 0 = [bq.sent] ∧ ringOk bq'.heap (bhd 0) [bq.sent] ∧
      (∀ x, bq.high + 1 < x → bq'.heap x = bq.heap x) ∧ WF bq' := by
  obtain ⟨bq', heq, hwf', hmax0, hoff, hhigh, hb0, hpos, hframe⟩ := clear_ok bq hwf
  refine ⟨bq', heq, ?_, ?_, ?_, hb0, ?_, hframe, hwf'⟩
  · rw [BPQ.is_empty, hmax0]
    rfl
  · rw [BPQ.get_max, hoff, hmax0]
    simp
  · intro i hi hi2
    have hbkti : bq'.bkt i = [] := hpos i hi hi2
    refine ⟨hbkti, ?_⟩
    have := WFc_isEmpty_iff bq' hwf'.1 i (by rw [hhigh]; exact hi2)
    rw [hbkti] at this
    exact this.2 rfl
  · have := hwf'.1.2.2.1 0 (by rw [hhigh]; omega)
    rw [hb0] at this
    exact this

theorem claim_C10_witness :
    ∃ bq', BPQ.clear sampleQ2 = .ok bq' ∧ bq'.is_empty = true ∧
      bq'.get_max = sampleQ2.offset ∧
      (∀ i, 0 < i → i < sampleQ2.high + 1 →
        bq'.bkt i = [] ∧ listIsEmpty bq'.heap (bhd i) = true) ∧
      bq'.bkt 0 = [sampleQ2.sent] ∧ ringOk bq'.heap (bhd 0) [sampleQ2.sent] ∧
      (∀ x, sampleQ2.high + 1 < x → bq'.heap x = sampleQ2.heap x) ∧ WF bq' :=
  claim_C10 sampleQ2 (by decide)


/-- C2.  On every non-empty well-formed queue, `popleft` detaches and
returns the front item of bucket[max] (whose key is `max`), then the rewind
loop terminates on some new `max ≤` the old one with no underflow (the
result is `.ok`, never the underflow panic); the same rewind run by
`detach` also terminates; and on any well-formed state the rewind loop
terminates from any starting point, because the sentinel keeps bucket 0
non-empty. -/
theorem claim_C2 (bq : BPQ) (hwf : WF bq) (hne : 0 < bq.max) :
    (∃ bq' r rest, bq.bkt bq.max = r :: rest ∧
      BPQ.popleft bq = .ok (bq', r) ∧ (bq.heap r).key = bq.max ∧
      bq'.bkt bq.max = rest ∧ WF bq' ∧ bq'.max ≤ bq.max) ∧
    (∀ a i, 0 < i → i < bq.high + 1 → a ∈ bq.bkt i →
      ∃ bq', BPQ.detach bq a = .ok bq' ∧ WF bq' ∧ bq'.max ≤ bq.max) ∧
    (∀ m, ∃ m2, rewind bq.heap m = some m2 ∧ m2 ≤ m) := by
  refine ⟨?_, ?_, ?_⟩
  · obtain ⟨bq', r, rest, hbm, heq, hwf', hle, -, -, hkey, hbkt, -⟩ := popleft_ok bq hwf hne
    exact ⟨bq', r, rest, hbm, heq, hkey, hbkt, hwf', hle⟩
  · intro a i hi hi2 hmem
    obtain ⟨bq', heq, hwf', hle, -⟩ := detach_ok bq a i hwf hi hi2 hmem
    exact ⟨bq', heq, hwf', hle⟩
  · intro m
    obtain ⟨m2, hr, hle, -⟩ := rewind_some bq.heap (WFc_bucket0_nonempty bq hwf.1) m
    exact ⟨m2, hr, hle⟩

theorem claim_C2_witness :
    (∃ bq' r rest, sampleQ2.bkt sampleQ2.max = r :: rest ∧
      BPQ.popleft sampleQ2 = .ok (bq', r) ∧
      (sampleQ2.heap r).key = sampleQ2.max ∧
      bq'.bkt sampleQ2.max = rest ∧ WF bq' ∧ bq'.max ≤ sampleQ2.max) ∧
    (∀ a i, 0 < i → i < sampleQ2.high + 1 → a ∈ sampleQ2.bkt i →
      ∃ bq', BPQ.detach sampleQ2 a = .ok bq' ∧ WF bq' ∧ bq'.max ≤ sampleQ2.max) ∧
    (∀ m, ∃ m2, rewind sampleQ2.heap m = some m2 ∧ m2 ≤ m) :=
  claim_C2 sampleQ2 (by decide) (by decide)

/-- C4.  For every resident, unlocked node with resulting index inside
[1, high]: `increase_key` detaches the node, adds delta to its index, and
re-attaches it at the head of the new bucket (LIFO), raising `max`
immediately if the new index exceeds it; `decrease_key` detaches, subtracts
delta, re-attaches at the tail of the new bucket (FIFO), and only rewinds
`max` (never below the next occupied bucket) when the old max bucket became
empty -- when bucket[max] is still non-empty, `max` is unchanged. -/
theorem claim_C4 (bq : BPQ) (a i : Nat) (hwf : WF bq) (hi : 0 < i)
    (hi2 : i < bq.high + 1) (hmem : a ∈ bq.bkt i) :
    (∀ δ : Nat, 0 < δ → i + δ ≤ bq.high →
      ∃ bq', BPQ.increase_key bq a δ = .ok bq' ∧ WF bq' ∧
        (bq'.heap a).key = i + δ ∧
        bq'.bkt (i + δ) = a :: bq.bkt (i + δ) ∧
        bq'.bkt i = (bq.bkt i).erase a ∧
        bq'.max = (if bq.max < i + δ then i + δ else bq.max)) ∧
    (∀ δ : Nat, 0 < δ → 0 < i - δ →
      ∃ bq', BPQ.decrease_key bq a δ = .ok bq' ∧ WF bq' ∧
        (bq'.heap a).key = i - δ ∧
        bq'.bkt (i - δ) = bq.bkt (i - δ) ++ [a] ∧
        bq'.bkt i = (bq.bkt i).erase a ∧
        bq'.max ≤ bq.max ∧ (bq'.bkt bq.max ≠ [] → bq'.max = bq.max)) := by
  have hlen : bq.bmodel.length = bq.high + 1 := hwf.1.1
  constructor
  · intro δ hδ hk
    obtain ⟨bq', heq, hwf', hoff, hhigh, hmax, hkey, hbm⟩ :=
      increase_ok bq a i δ hwf hi hi2 hmem hk
    have hne : i + δ ≠ i := by omega
    have hlen2 : (bq.bmodel.set i ((bq.bkt i).erase a)).length = bq.high + 1 := by
      rw [List.length_set]; exact hlen
    have hb1 : bq'.bkt (i + δ) = a :: bq.bkt (i + δ) := by
      show bq'.bmodel.getD (i + δ) [] = _
      rw [hbm, getD_set_self _ _ _ (by rw [hlen2]; omega), getD_set_ne _ _ _ _ hne]
      rfl
    have hb2 : bq'.bkt i = (bq.bkt i).erase a := by
      show bq'.bmodel.getD i [] = _
      rw [hbm, getD_set_ne _ _ _ _ (fun e => hne e.symm),
        getD_set_self _ _ _ (by rw [hlen]; omega)]
    exact ⟨bq', heq, hwf', hkey, hb1, hb2, hmax⟩
  · intro δ hδ hpos
    have hk : i - δ ≤ bq.high := by omega
    obtain ⟨bq', heq, hwf', hoff, hhigh, hle, hkey, hbm⟩ :=
      decrease_ok bq a i δ hwf hi hi2 hmem hpos hk
    have hne : i - δ ≠ i := by omega
    have hlen2 : (bq.bmodel.set i ((bq.bkt i).erase a)).length = bq.high + 1 := by
      rw [List.length_set]; exact hlen
    have hb1 : bq'.bkt (i - δ) = bq.bkt (i - δ) ++ [a] := by
      show bq'.bmodel.getD (i - δ) [] = _
      rw [hbm, getD_set_self _ _ _ (by rw [hlen2]; omega), getD_set_ne _ _ _ _ hne]
      rfl
    have hb2 : bq'.bkt i = (bq.bkt i).erase a := by
      show bq'.bmodel.getD i [] = _
      rw [hbm, getD_set_ne _ _ _ _ (fun e => hne e.symm),
        getD_set_self _ _ _ (by rw [hlen]; omega)]
    refine ⟨bq', heq, hwf', hkey, hb1, hb2, hle, ?_⟩
    intro hnemax
    by_contra hne2
    have hlt : bq'.max < bq.max := by omega
    have := hwf'.2.2.1 bq.max (by rw [hhigh]; exact hwf.2.1) hlt
    exact hnemax this

theorem claim_C4_witness :
    (∃ bq', BPQ.increase_key sampleB1 10 1 = .ok bq' ∧ WF bq' ∧
      (bq'.heap 10).key = 2 + 1 ∧
      bq'.bkt (2 + 1) = 10 :: sampleB1.bkt (2 + 1) ∧
      bq'.bkt 2 = (sampleB1.bkt 2).erase 10 ∧
      bq'.max = (if sampleB1.max < 2 + 1 then 2 + 1 else sampleB1.max)) ∧
    (∃ bq', BPQ.decrease_key sampleB1 10 1 = .ok bq' ∧ WF bq' ∧
      (bq'.heap 10).key = 2 - 1 ∧
      bq'.bkt (2 - 1) = sampleB1.bkt (2 - 1) ++ [10] ∧
      bq'.bkt 2 = (sampleB1.bkt 2).erase 10 ∧
      bq'.max ≤ sampleB1.max ∧
      (bq'.bkt sampleB1.max ≠ [] → bq'.max = sampleB1.max)) :=
  have h := claim_C4 sampleB1 10 2 (by decide) (by decide) (by decide) (by decide)
  ⟨h.1 1 (by decide) (by decide), h.2 1 (by decide) (by decide)⟩

theorem claim_C1_witness :
    WF sampleQ ∧ Step sampleQ sampleQ2 ∧
    (WF sampleQ2 ∧ ∀ i < sampleQ2.high + 1, ∀ x ∈ bhd i :: sampleQ2.bkt i,
      (sampleQ2.heap ((sampleQ2.heap x).next)).prev = x ∧
      (sampleQ2.heap ((sampleQ2.heap x).prev)).next = x) :=
  have h1 : WF sampleQ := by decide
  have hstep : Step sampleQ sampleQ2 :=
    Step.append sampleQ sampleQ2 10 1 (by decide) (by decide) (by decide) rfl
  ⟨h1, hstep, claim_C1.1 sampleQ sampleQ2 h1 hstep⟩


/-! ## Thin states: the strictly-increasing-keys scenario -/

theorem thin_fresh (bq : BPQ) (L : List (Nat × Nat)) (a : Nat) (ht : thin bq L)
    (h1 : bq.high + 1 < a) (h2 : ∀ q ∈ L, a ≠ q.1) (h3 : a ≠ bq.sent) :
    fresh bq a := by
  obtain ⟨hwf, hL, hemp, hasc, hmax⟩ := ht
  refine ⟨h1, ?_⟩
  intro i hi
  rcases Nat.eq_zero_or_pos i with hz | hpos
  · subst hz
    rw [hwf.1.2.1]
    simp only [List.mem_singleton]
    exact h3
  · by_cases hex : ∃ q ∈ L, q.2 = i
    · obtain ⟨q, hq, hqi⟩ := hex
      rw [← hqi, (hL q hq).2.2]
      simp only [List.mem_singleton]
      exact h2 q hq
    · push_neg at hex
      rw [hemp i hpos hi hex]
      simp

theorem thin_append (bq : BPQ) (L : List (Nat × Nat)) (a : Nat) (k : Int)
    (idx : Nat) (ht : thin bq L) (hidx : (k - bq.offset).toNat = idx)
    (hfr : fresh bq a) (h1 : 0 < idx) (h2 : idx ≤ bq.high)
    (hgt : ∀ p ∈ L, p.2 < idx) :
    ∃ bq2, BPQ.append bq a k = .ok bq2 ∧ thin bq2 (L ++ [(a, idx)]) ∧
      bq2.offset = bq.offset ∧ bq2.high = bq.high ∧ bq2.sent = bq.sent := by
  obtain ⟨hwf, hL, hemp, hasc, hmax⟩ := ht
  obtain ⟨bq2, heq, hwf2, hoff, hhigh, hmax2, hbkt2, hbktne, hkey⟩ :=
    append_ok bq a k idx hidx hwf hfr h1 h2
  have hbktidx : bq.bkt idx = [] := by
    refine hemp idx h1 (by omega) ?_
    intro p hp
    exact (hgt p hp).ne
  have hmaxlt : bq.max < idx := by
    rw [hmax]
    rcases List.eq_nil_or_concat L with hnil | ⟨L2, q, hq⟩
    · subst hnil
      simpa using h1
    · rw [List.concat_eq_append] at hq
      subst hq
      have hql : q ∈ L2 ++ [q] := by simp
      have := hgt q hql
      simp only [List.map_append, List.map_cons, List.map_nil, List.getLastD_concat]
      exact this
  refine ⟨bq2, heq, ⟨hwf2, ?_, ?_, ?_, ?_⟩, hoff, hhigh, by
    show bq2.high + 2 = bq.high + 2
    omega⟩
  · intro p hp
    rcases List.mem_append.1 hp with hp2 | hp2
    · have hne : p.2 ≠ idx := (hgt p hp2).ne
      rw [hhigh, hbktne p.2 hne]
      exact hL p hp2
    · rw [List.mem_singleton] at hp2
      subst hp2
      rw [hhigh, hbkt2, hbktidx]
      exact ⟨h1, h2, rfl⟩
  · intro i hi hi2 hne
    have hne2 : i ≠ idx := by
      have := hne (a, idx) (by simp)
      exact fun e => this e.symm
    rw [hbktne i (fun e => hne2 e)]
    refine hemp i hi (by rw [← hhigh]; exact hi2) ?_
    intro p hp
    exact hne p (List.mem_append.2 (Or.inl hp))
  · rw [List.chain'_append]
    refine ⟨hasc, by simp, ?_⟩
    intro x hx y hy
    simp only [List.head?_cons, Option.mem_def, Option.some.injEq] at hy
    subst hy
    exact hgt x (List.mem_of_mem_getLast? hx)
  · rw [hmax2, if_pos hmaxlt]
    simp only [List.map_append, List.map_cons, List.map_nil, List.getLastD_concat]


theorem chain'_pairwise_of_trans {α : Type} {R : α → α → Prop}
    (htr : ∀ a b c, R a b → R b c → R a c) (l : List α)
    (h : l.Chain' R) : l.Pairwise R :=
  (@List.chain'_iff_pairwise α R ⟨htr⟩ l).1 h

theorem thin_pop (bq : BPQ) (L : List (Nat × Nat)) (a : Nat) (idx : Nat)
    (ht : thin bq (L ++ [(a, idx)])) :
    ∃ bq2, BPQ.popleft bq = .ok (bq2, a) ∧ (bq.heap a).key = idx ∧
      bq.max = idx ∧ thin bq2 L ∧
      bq2.offset = bq.offset ∧ bq2.high = bq.high := by
  obtain ⟨hwf, hL, hemp, hasc, hmax⟩ := ht
  obtain ⟨hidpos, hidle, hbktidx⟩ := hL (a, idx) (by simp)
  have hmaxidx : bq.max = idx := by
    rw [hmax]
    simp only [List.map_append, List.map_cons, List.map_nil, List.getLastD_concat]
  have hpw := @chain'_pairwise_of_trans (Nat × Nat) (fun p q => p.2 < q.2)
    (fun _ _ _ h1 h2 => Nat.lt_trans h1 h2) _ hasc
  rw [List.pairwise_append] at hpw
  have hgt : ∀ p ∈ L, p.2 < idx := fun p hp => hpw.2.2 p hp (a, idx) (by simp)
  have hpos : 0 < bq.max := by omega
  obtain ⟨bq2, r, rest, hbm, heq, hwf2, hle, hoff, hhigh, hkeyr, hbktmax, hbktoth⟩ :=
    popleft_ok bq hwf hpos
  rw [hmaxidx, hbktidx] at hbm
  simp only [List.cons.injEq] at hbm
  obtain ⟨hra, hrest⟩ := hbm
  subst hra
  subst hrest
  obtain ⟨hc2, hm2, habove2, hmne2⟩ := hwf2
  refine ⟨bq2, heq, by omega, hmaxidx,
    ⟨⟨hc2, hm2, habove2, hmne2⟩, ?_, ?_, ?_, ?_⟩, hoff, hhigh⟩
  · intro p hp
    have h := hL p (List.mem_append.2 (Or.inl hp))
    have hne : p.2 ≠ bq.max := by
      have := hgt p hp
      omega
    rw [hhigh, hbktoth p.2 hne]
    exact h
  · intro i hi hi2 hne
    by_cases hcase : i = bq.max
    · rw [hcase]
      exact hbktmax
    · rw [hbktoth i hcase]
      refine hemp i hi (by omega) ?_
      intro p hp
      rcases List.mem_append.1 hp with h | h
      · exact hne p h
      · rw [List.mem_singleton] at h
        subst h
        show idx ≠ i
        omega
  · exact (List.chain'_append.1 hasc).1
  · rcases List.eq_nil_or_concat L with hnil | ⟨L2, q, hq⟩
    · subst hnil
      simp only [List.map_nil, List.getLastD_nil]
      by_contra h0
      have hpos2 : 0 < bq2.max := Nat.pos_of_ne_zero h0
      refine hmne2 ?_
      rcases Nat.lt_or_ge bq2.max bq.max with hlt | hge
      · rw [hbktoth bq2.max (Nat.ne_of_lt hlt)]
        refine hemp bq2.max hpos2 (by omega) ?_
        intro p hp
        simp only [List.nil_append, List.mem_singleton] at hp
        subst hp
        show idx ≠ bq2.max
        omega
      · have heqm : bq2.max = bq.max := Nat.le_antisymm hle hge
        rw [heqm]
        exact hbktmax
    · rw [List.concat_eq_append] at hq
      subst hq
      simp only [List.map_append, List.map_cons, List.map_nil, List.getLastD_concat]
      have hqmem : q ∈ L2 ++ [q] := by simp
      have hqlt : q.2 < idx := hgt q hqmem
      obtain ⟨hq1, hq2le, hqbkt⟩ := hL q (List.mem_append.2 (Or.inl hqmem))
      have hq2bkt : bq2.bkt q.2 = [q.1] := by
        rw [hbktoth q.2 (by omega)]
        exact hqbkt
      rcases Nat.lt_trichotomy bq2.max q.2 with hlt | heqm2 | hgtm
      · have hz := habove2 q.2 (by omega) hlt
        rw [hq2bkt] at hz
        exact absurd hz (by simp)
      · exact heqm2
      · exfalso
        refine hmne2 ?_
        rcases Nat.lt_or_ge bq2.max bq.max with hlt2 | hge
        · rw [hbktoth bq2.max (Nat.ne_of_lt hlt2)]
          have hpwL2 : ∀ p ∈ L2, p.2 < q.2 := by
            have h := List.pairwise_append.1 hpw.1
            intro p hp
            exact h.2.2 p hp q (by simp)
          refine hemp bq2.max (by omega) (by omega) ?_
          intro p hp
          rcases List.mem_append.1 hp with hp2 | hp2
          · rcases List.mem_append.1 hp2 with hp3 | hp3
            · have := hpwL2 p hp3
              omega
            · rw [List.mem_singleton] at hp3
              subst hp3
              omega
          · rw [List.mem_singleton] at hp2
            subst hp2
            show idx ≠ bq2.max
            omega
        · have heqm : bq2.max = bq.max := Nat.le_antisymm hle hge
          rw [heqm]
          exact hbktmax
theorem appendChain_thin (bq : BPQ) (L : List (Nat × Nat)) (ps : List (Nat × Int))
    (ht : thin bq L)
    (haddr : ∀ p ∈ ps, bq.high + 1 < p.1 ∧ p.1 ≠ bq.sent)
    (hnd : (ps.map Prod.fst).Nodup)
    (hdisj : ∀ p ∈ ps, ∀ q ∈ L, p.1 ≠ q.1)
    (hkeys : ∀ p ∈ ps, bq.offset < p.2 ∧ p.2 ≤ bq.offset + bq.high)
    (hasc : ps.Chain' (fun p q => p.2 < q.2))
    (habove : ∀ p ∈ ps, ∀ q ∈ L, (q.2 : Int) < p.2 - bq.offset) :
    ∃ bq2, appendChain bq ps = .ok bq2 ∧
      thin bq2 (L ++ ps.map (fun p => (p.1, (p.2 - bq.offset).toNat))) ∧
      bq2.offset = bq.offset ∧ bq2.high = bq.high := by
  induction ps generalizing bq L with
  | nil =>
    refine ⟨bq, rfl, ?_, rfl, rfl⟩
    rw [List.map_nil, List.append_nil]
    exact ht
  | cons p rest ih =>
    obtain ⟨a, k⟩ := p
    have hmem : (a, k) ∈ (a, k) :: rest := by simp
    obtain ⟨ha1, ha2⟩ := haddr (a, k) hmem
    obtain ⟨hk1, hk2⟩ := hkeys (a, k) hmem
    rw [List.map_cons, List.nodup_cons] at hnd
    obtain ⟨hanotin, hnd2⟩ := hnd
    have hfr : fresh bq a :=
      thin_fresh bq L a ht ha1 (fun q hq => hdisj (a, k) hmem q hq) ha2
    obtain ⟨bq2, heq, ht2, hoff, hhigh, hsent⟩ :=
      thin_append bq L a k ((k - bq.offset).toNat) ht rfl hfr (by omega) (by omega)
        (by
          intro q hq
          have := habove (a, k) hmem q hq
          omega)
    have hpw := @chain'_pairwise_of_trans (Nat × Int) (fun p q => p.2 < q.2)
      (fun _ _ _ h1 h2 => lt_trans h1 h2) _ hasc
    rw [List.pairwise_cons] at hpw
    have hklt : ∀ p ∈ rest, k < p.2 := fun p hp => hpw.1 p hp
    obtain ⟨bq3, heq3, ht3, hoff3, hhigh3⟩ :=
      ih bq2 (L ++ [(a, (k - bq.offset).toNat)]) ht2
        (by
          intro p hp
          have h := haddr p (List.mem_cons_of_mem _ hp)
          exact ⟨by rw [hhigh]; exact h.1, by rw [hsent]; exact h.2⟩)
        hnd2
        (by
          intro p hp q hq
          rcases List.mem_append.1 hq with h | h
          · exact hdisj p (List.mem_cons_of_mem _ hp) q h
          · rw [List.mem_singleton] at h
            subst h
            show p.1 ≠ a
            intro hcontra
            refine hanotin ?_
            rw [← hcontra]
            exact List.mem_map.2 ⟨p, hp, rfl⟩)
        (by
          intro p hp
          have h := hkeys p (List.mem_cons_of_mem _ hp)
          rw [hoff, hhigh]
          exact h)
        (List.Chain'.tail hasc)
        (by
          intro p hp q hq
          rw [hoff]
          rcases List.mem_append.1 hq with h | h
          · exact habove p (List.mem_cons_of_mem _ hp) q h
          · rw [List.mem_singleton] at h
            subst h
            show (((k - bq.offset).toNat : Nat) : Int) < p.2 - bq.offset
            have := hklt p hp
            omega)
    refine ⟨bq3, ?_, ?_, by rw [hoff3, hoff], by rw [hhigh3, hhigh]⟩
    · show appendChain bq ((a, k) :: rest) = .ok bq3
      simp only [appendChain, heq]
      exact heq3
    · have hsplit : L ++ ((a, k) :: rest).map (fun p => (p.1, (p.2 - bq.offset).toNat))
          = (L ++ [(a, (k - bq.offset).toNat)])
            ++ rest.map (fun p => (p.1, (p.2 - bq.offset).toNat)) := by
        rw [List.map_cons, List.append_assoc, List.singleton_append]
      rw [hsplit]
      rw [hoff] at ht3
      exact ht3

theorem popChain_thin (bq : BPQ) (L : List (Nat × Nat)) (ht : thin bq L) :
    ∃ bq2, popChain bq L.length =
      .ok (bq2, L.reverse.map (fun p => bq.offset + (p.2 : Int))) := by
  induction L using List.reverseRecOn generalizing bq with
  | nil => exact ⟨bq, rfl⟩
  | append_singleton L2 q ih =>
    obtain ⟨qa, qi⟩ := q
    obtain ⟨bq2, heq, hkey, hmaxeq, ht2, hoff, hhigh⟩ := thin_pop bq L2 qa qi ht
    obtain ⟨bq3, heq3⟩ := ih bq2 ht2
    refine ⟨bq3, ?_⟩
    have hlen : (L2 ++ [(qa, qi)]).length = L2.length + 1 := by simp
    rw [hlen]
    simp only [popChain, heq, heq3, List.reverse_append, List.reverse_cons,
      List.reverse_nil, List.nil_append, List.singleton_append, List.map_cons,
      hkey, hoff]
/-- C5: from a freshly constructed queue over `[lo, hi]`, appending any
sequence of distinct caller nodes whose external keys are strictly
increasing and all inside `[lo, hi]` succeeds, and the same number of
`popleft` calls then succeeds and returns exactly those keys reversed,
i.e. in strictly descending order. -/
theorem claim_C5 (lo hi : Int) (hab : lo ≤ hi) (ps : List (Nat × Int))
    (haddr : ∀ p ∈ ps, (hi - lo + 1).toNat + 2 < p.1)
    (hnd : (ps.map Prod.fst).Nodup)
    (hkeys : ∀ p ∈ ps, lo ≤ p.2 ∧ p.2 ≤ hi)
    (hasc : ps.Chain' (fun p q => p.2 < q.2)) :
    ∃ bq0 bq1 bq2, BPQ.new lo hi = some bq0 ∧
      appendChain bq0 ps = .ok bq1 ∧
      popChain bq1 ps.length = .ok (bq2, (ps.map Prod.snd).reverse) ∧
      ((ps.map Prod.snd).reverse).Chain' (fun x y => y < x) := by
  obtain ⟨bq0, hnew, hwf0, hoff0, hhigh0, hmax0, hlen0, hbkt00, hemp0, hie0, hgm0⟩ :=
    new_ok lo hi hab
  have ht0 : thin bq0 [] := by
    refine ⟨hwf0, by simp, ?_, List.chain'_nil, by simpa using hmax0⟩
    intro i hi1 hi2 _
    exact hemp0 i hi1 hi2
  obtain ⟨bq1, happ, ht1, hoff1, hhigh1⟩ :=
    appendChain_thin bq0 [] ps ht0
      (by
        intro p hp
        have h := haddr p hp
        refine ⟨by rw [hhigh0]; omega, ?_⟩
        show p.1 ≠ bq0.high + 2
        rw [hhigh0]
        omega)
      hnd
      (by
        intro p hp q hq
        simp at hq)
      (by
        intro p hp
        have h := hkeys p hp
        rw [hoff0, hhigh0]
        exact ⟨by omega, by omega⟩)
      hasc
      (by
        intro p hp q hq
        simp at hq)
  obtain ⟨bq2, hpop⟩ :=
    popChain_thin bq1 ([] ++ ps.map (fun p => (p.1, (p.2 - bq0.offset).toNat))) ht1
  simp only [List.nil_append, List.length_map] at hpop
  have hlist : ((ps.map (fun p => (p.1, (p.2 - bq0.offset).toNat))).reverse.map
      (fun p => bq1.offset + (p.2 : Int))) = (ps.map Prod.snd).reverse := by
    rw [← List.map_reverse, List.map_map, ← List.map_reverse]
    refine List.map_congr_left ?_
    intro p hp
    have hp2 := hkeys p (List.mem_reverse.1 hp)
    show bq1.offset + (((p.2 - bq0.offset).toNat : Nat) : Int) = p.2
    rw [hoff1, hoff0]
    omega
  rw [hlist] at hpop
  refine ⟨bq0, bq1, bq2, hnew, happ, hpop, ?_⟩
  rw [List.chain'_reverse]
  exact (List.chain'_map Prod.snd).2 hasc
/-- Witness for C5: queue over [-1, 1], three nodes appended with keys
-1, 0, 1; the three pops return 1, 0, -1. -/
theorem claim_C5_witness :
    (((-1 : Int) ≤ 1 ∧
      (∀ p ∈ [((10 : Nat), (-1 : Int)), (11, 0), (12, 1)],
        ((1 : Int) - (-1) + 1).toNat + 2 < p.1) ∧
      ([((10 : Nat), (-1 : Int)), (11, 0), (12, 1)].map Prod.fst).Nodup ∧
      (∀ p ∈ [((10 : Nat), (-1 : Int)), (11, 0), (12, 1)],
        (-1 : Int) ≤ p.2 ∧ p.2 ≤ 1) ∧
      [((10 : Nat), (-1 : Int)), (11, 0), (12, 1)].Chain'
        (fun p q => p.2 < q.2)) ∧
     ∃ bq0 bq1 bq2, BPQ.new (-1) 1 = some bq0 ∧
       appendChain bq0 [((10 : Nat), (-1 : Int)), (11, 0), (12, 1)] = .ok bq1 ∧
       popChain bq1 ([((10 : Nat), (-1 : Int)), (11, 0), (12, 1)]).length =
         .ok (bq2, ([((10 : Nat), (-1 : Int)), (11, 0), (12, 1)].map
           Prod.snd).reverse) ∧
       (([((10 : Nat), (-1 : Int)), (11, 0), (12, 1)].map
         Prod.snd).reverse).Chain' (fun x y => y < x)) :=
  ⟨⟨by decide, by decide, by decide, by decide,
    by simp [List.chain'_cons, List.chain'_singleton]⟩,
   claim_C5 (-1) 1 (by decide) [(10, -1), (11, 0), (12, 1)]
     (by decide) (by decide) (by decide)
     (by simp [List.chain'_cons, List.chain'_singleton])⟩
end Mywheel
